import Mathlib

/-!
Shallow embedding of the ethwal append-only block store (Go) in Lean 4,
together with proofs checking the natural-language specification against it.

Machine integers are modelled as `Nat` with explicit `% 2 ^ 64` (`u64`)
wherever Go's `uint64` arithmetic can wrap; `uint16` values carry explicit
`% 2 ^ 16` masks.  Stateful Go code is modelled by explicit state passing;
filesystem effects are modelled by a small state record plus an event trace.
-/

namespace Ethwal

/-! ## Machine-integer helpers -/

def U16 : Nat := 2 ^ 16

def U64 : Nat := 2 ^ 64

/-- Truncation to Go's `uint64` range. -/
def u64 (n : Nat) : Nat := n % U64

/-- Go's `x - 1` on `uint64`: wraps to `2^64 - 1` at zero. -/
def pred64 (n : Nat) : Nat := if n = 0 then U64 - 1 else n - 1

/-! ## Compound index IDs (src/index.go)

`NewIndexCompoundID(blockNum uint64, dataIndex uint16)` is
`IndexCompoundID(uint64(blockNum<<16 | uint64(dataIndex)))`;
`BlockNumber()` is `(uint64(i) & 0xFFFFFFFFFFFF0000) >> 16`;
`DataIndex()` is `uint16(i) & 0xFFFF`; `Split()` returns both. -/

def NewIndexCompoundID (blockNum dataIndex : Nat) : Nat :=
  ((blockNum <<< 16) % U64) ||| (dataIndex % U16)

def BlockNumber (i : Nat) : Nat :=
  (i &&& 0xFFFFFFFFFFFF0000) >>> 16

def DataIndex (i : Nat) : Nat :=
  (i % U16) &&& 0xFFFF

def SplitID (i : Nat) : Nat × Nat :=
  (BlockNumber i, DataIndex i)

end Ethwal

namespace Ethwal

/-! ## File and FileIndex (src/unnamed/part_003)

A `File` records one sealed segment range `[FirstBlockNum, LastBlockNum]`.
The catalog (`FileIndex.files`) is the ordered list of such entries. -/

structure File where
  FirstBlockNum : Nat
  LastBlockNum : Nat
deriving Repr, DecidableEq

/-- Go's `sort.Search(n, f)` loop
(`i, j := 0, n; for i < j { h := (i+j)/2; if !f(h) { i = h+1 } else { j = h } }; return i`),
written with an explicit iteration budget so that it is structurally
recursive; `j - i` strictly decreases per iteration, so a budget of `j - i`
always suffices (see `sortSearch`). -/
def sortSearchFuel (f : Nat → Bool) : Nat → Nat → Nat → Nat
  | 0, i, _ => i
  | fuel + 1, i, j =>
    if i < j then
      let m := (i + j) / 2
      if f m then sortSearchFuel f fuel i m else sortSearchFuel f fuel (m + 1) j
    else i

/-- Go's `sort.Search(n, f)` on the interval `[i, j)`. -/
def sortSearch (f : Nat → Bool) (i j : Nat) : Nat :=
  sortSearchFuel f (j - i) i j

/-- Value of `fi.files[k].LastBlockNum` as read through `List.get?`
(out-of-range reads never happen inside `sort.Search`'s probe range). -/
def lastAt (files : List File) (k : Nat) : Nat :=
  ((files.get? k).getD ⟨0, 0⟩).LastBlockNum

/-- Index returned by Go's `sort.Search` inside `FileIndex.FindFile`:
the probe predicate is `blockNum <= fi.files[i].LastBlockNum`. -/
def findFileIdx (files : List File) (blockNum : Nat) : Nat :=
  sortSearch (fun k => decide (blockNum ≤ lastAt files k)) 0 files.length

/-- `FileIndex.FindFile`: `none` models the `ErrFileNotExist` return. -/
def FindFile (files : List File) (blockNum : Nat) : Option (File × Nat) :=
  if h : findFileIdx files blockNum < files.length
  then some (files.get ⟨findFileIdx files blockNum, h⟩, findFileIdx files blockNum)
  else none

inductive AddFileError where
  | alreadyExist (blockNum : Nat)
deriving Repr, DecidableEq

/-- `FileIndex.AddFile`: reject when `FindFile(file.FirstBlockNum)` succeeds
(error message `file already exist: block N`), else append. -/
def AddFile (files : List File) (file : File) : Except AddFileError (List File) :=
  match FindFile files file.FirstBlockNum with
  | some _ => .error (.alreadyExist file.FirstBlockNum)
  | none => .ok (files ++ [file])

/-- Catalog well-formedness maintained by the single writer: each entry has
`FirstBlockNum ≤ LastBlockNum` and consecutive ranges are disjoint ascending
(spec invariant I1). -/
def fileIndexWF (files : List File) : Prop :=
  (∀ f ∈ files, f.FirstBlockNum ≤ f.LastBlockNum) ∧
  List.Chain' (fun a b => a.LastBlockNum < b.FirstBlockNum) files

instance fileIndexWF_decidable (files : List File) : Decidable (fileIndexWF files) :=
  inferInstanceAs (Decidable ((∀ f ∈ files, f.FirstBlockNum ≤ f.LastBlockNum) ∧
    List.Chain' (fun (a b : File) => a.LastBlockNum < b.FirstBlockNum) files))

end Ethwal

namespace Ethwal

/-! ## Filesystem model for catalog load/save (src/unnamed/part_003)

The virtual filesystem is modelled by the decoded contents of the
`.fileIndex` catalog (`none` when the file does not exist) together with the
sets of segments present at content-addressed paths and at legacy
`<first>_<last>.wal` paths.  The CBOR+ZSTD byte round-trip of the catalog is
abstracted: the catalog stores the decoded entry list. -/

structure FSState where
  catalog : Option (List File)
  contentSegs : List File
  legacySegs : List File
deriving Repr, DecidableEq

/-- `File.exist`: attributes probe on the content-addressed path. -/
def fileExistContent (fs : FSState) (f : File) : Bool :=
  decide (f ∈ fs.contentSegs)

/-- `File.existLegacy`: attributes probe on the legacy path. -/
def fileExistLegacy (fs : FSState) (f : File) : Bool :=
  decide (f ∈ fs.legacySegs)

/-- `File.Exist`: `f.exist(ctx, fs) || f.existLegacy(ctx, fs)`. -/
def FileExist (fs : FSState) (f : File) : Bool :=
  fileExistContent fs f || fileExistLegacy fs f

/-- `FileIndex.readFiles`: decode all entries, then
`if len(files) != 0 && !files[len(files)-1].Exist(ctx, fs)` drop the trailing
entry (it may be incomplete due to a crash).  Purely in-memory. -/
def readFiles (fs : FSState) (decoded : List File) : List File :=
  match decoded.getLast? with
  | none => decoded
  | some f => if FileExist fs f then decoded else decoded.dropLast

/-- `FileIndex.Save`: write all in-memory entries to the `.fileIndex` path. -/
def SaveFileIndex (files : List File) (fs : FSState) : FSState :=
  { fs with catalog := some files }

/-- Insertion step for the legacy-migration sort (`sort.Slice` by
`FirstBlockNum`). -/
def insertByFirst (f : File) : List File → List File
  | [] => [f]
  | g :: rest =>
    if f.FirstBlockNum ≤ g.FirstBlockNum then f :: g :: rest
    else g :: insertByFirst f rest

/-- Sort used by `NewFileIndexFromFiles` during legacy migration. -/
def sortByFirst : List File → List File
  | [] => []
  | f :: rest => insertByFirst f (sortByFirst rest)

/-- `FileIndex.loadFiles`: open `.fileIndex` and read it through `readFiles`;
when it does not exist, migrate legacy `*.wal` files (collected by `Walk`,
sorted by first block, saved as a fresh catalog) and read that; an empty
dataset loads as the empty list.  Returns the in-memory list and the
(possibly migrated) filesystem. -/
def LoadFileIndex (fs : FSState) : List File × FSState :=
  match fs.catalog with
  | some c => (readFiles fs c, fs)
  | none =>
    if fs.legacySegs.isEmpty then ([], fs)
    else
      let sorted := sortByFirst fs.legacySegs
      let fs' := { fs with catalog := some sorted }
      (readFiles fs' sorted, fs')

/-- Spec-side definition, from the words of claim C6: two files' block
ranges overlap when they share at least one block number. -/
def overlapsRange (a b : File) : Prop :=
  max a.FirstBlockNum b.FirstBlockNum ≤ min a.LastBlockNum b.LastBlockNum

instance overlapsRange_decidable (a b : File) : Decidable (overlapsRange a b) :=
  inferInstanceAs (Decidable (_ ≤ _))

end Ethwal

namespace Ethwal

/-! ## Writer engine (src/writer.go, src/writer_file_roll_policy.go)

Blocks are represented by their numbers (payload bytes are irrelevant to the
claims about the writer); the encoder appends the block to the in-memory
buffer and the byte-counting wrapper reports `encSize b` bytes to the roll
policy.  Fallible filesystem steps are driven by a `WOracle` of outcomes,
and each roll produces an event trace. -/

structure RollPolicy (P : Type) where
  ShouldRoll : P → Bool
  Reset : P → P
  onWrite : P → Nat → P
  onBlockProcessed : P → Nat → P
  onFlush : P → P

/-- `fileSizeRollPolicy`: accumulate `bytesWritten`; roll when
`bytesWritten >= maxSize`; `Reset` zeroes the counter; the block/flush hooks
are no-ops. -/
def fileSizeRollPolicy (maxSize : Nat) : RollPolicy Nat where
  ShouldRoll := fun bytesWritten => decide (bytesWritten ≥ maxSize)
  Reset := fun _ => 0
  onWrite := fun bytesWritten n => u64 (bytesWritten + n)
  onBlockProcessed := fun p _ => p
  onFlush := fun p => p

structure WState (P : Type) where
  buffer : List Nat
  encOpen : Bool
  firstBlockNum : Nat
  lastBlockNum : Nat
  fileIndex : List File
  pol : P
deriving Repr, DecidableEq

structure WOracle where
  saveOk : Bool
  createOk : Bool
  writeOk : Bool
  closeOk : Bool
  encodeOk : Bool
deriving Repr, DecidableEq

inductive WEvent where
  | onFlushEv : WEvent
  | addFileEv (f : File) : WEvent
  | saveIndexEv (files : List File) : WEvent
  | createSegEv (f : File) : WEvent
  | writeSegEv (f : File) (contents : List Nat) : WEvent
  | closeSegEv (f : File) : WEvent
deriving Repr, DecidableEq

inductive WError where
  | addFileErr (e : AddFileError)
  | saveErr
  | createErr
  | writeErr
  | closeErr
  | encodeErr
deriving Repr, DecidableEq

/-- `(*writer[T]).writeFile`: allocate `File{first, last}`, fire the policy's
`onFlush`, append to the in-memory `FileIndex`, save the FileIndex, then
create/write/close the segment at its content-addressed path.  Each
completed filesystem action is recorded as an event; a failing step stops
the sequence and surfaces the error (the in-memory `AddFile` mutation is
kept, mirroring Go). -/
def writeFile {P : Type} (pol : RollPolicy P) (o : WOracle) (st : WState P) (fs : FSState) :
    WState P × FSState × Option WError × List WEvent :=
  let newFile : File := ⟨st.firstBlockNum, st.lastBlockNum⟩
  let st1 := { st with pol := pol.onFlush st.pol }
  match AddFile st.fileIndex newFile with
  | .error e => (st1, fs, some (.addFileErr e), [.onFlushEv])
  | .ok fi' =>
    let st2 := { st1 with fileIndex := fi' }
    if !o.saveOk then
      (st2, fs, some .saveErr, [.onFlushEv, .addFileEv newFile])
    else
      let fs1 := SaveFileIndex fi' fs
      if !o.createOk then
        (st2, fs1, some .createErr, [.onFlushEv, .addFileEv newFile, .saveIndexEv fi'])
      else if !o.writeOk then
        (st2, fs1, some .writeErr,
          [.onFlushEv, .addFileEv newFile, .saveIndexEv fi', .createSegEv newFile])
      else if !o.closeOk then
        (st2, fs1, some .closeErr,
          [.onFlushEv, .addFileEv newFile, .saveIndexEv fi', .createSegEv newFile,
            .writeSegEv newFile st.buffer])
      else
        (st2, { fs1 with contentSegs := fs1.contentSegs ++ [newFile] }, none,
          [.onFlushEv, .addFileEv newFile, .saveIndexEv fi', .createSegEv newFile,
            .writeSegEv newFile st.buffer, .closeSegEv newFile])

/-- `(*writer[T]).newFile`: advance `firstBlockNum` to `lastBlockNum + 1`
(uint64), reset the buffer and the roll policy, and install a fresh
encoder/closer pipeline. -/
def newFileState {P : Type} (pol : RollPolicy P) (st : WState P) : WState P :=
  { st with firstBlockNum := u64 (st.lastBlockNum + 1),
            buffer := [],
            pol := pol.Reset st.pol,
            encOpen := true }

/-- `(*writer[T]).rollFile`: when a pipeline is open and the buffer holds at
least one block (`lastBlockNum >= firstBlockNum`), close the pipeline and run
`writeFile`; an empty open buffer returns nil immediately; on success (or
with no pipeline yet) start a fresh file. -/
def rollFile {P : Type} (pol : RollPolicy P) (o : WOracle) (st : WState P) (fs : FSState) :
    WState P × FSState × Option WError × List WEvent :=
  if st.encOpen then
    if st.lastBlockNum < st.firstBlockNum then (st, fs, none, [])
    else
      match writeFile pol o st fs with
      | (st1, fs1, some e, tr) => (st1, fs1, some e, tr)
      | (st1, fs1, none, tr) => (newFileState pol st1, fs1, none, tr)
  else (newFileState pol st, fs, none, [])

/-- `(*writer[T]).Write`: drop silently when `lastBlockNum >= b.Number`;
roll when no encoder is ready or the policy demands it; encode `b` (the byte
counter reports `encSize b` to the policy); set `lastBlockNum := b.Number`
and fire `onBlockProcessed`. -/
def writeW {P : Type} (pol : RollPolicy P) (encSize : Nat → Nat) (o : WOracle)
    (st : WState P) (fs : FSState) (b : Nat) :
    WState P × FSState × Option WError × List WEvent :=
  if st.lastBlockNum ≥ b then (st, fs, none, [])
  else
    match (if !st.encOpen || pol.ShouldRoll st.pol
           then rollFile pol o st fs else (st, fs, none, [])) with
    | (st1, fs1, some e, tr) => (st1, fs1, some e, tr)
    | (st1, fs1, none, tr) =>
      if o.encodeOk then
        ({ st1 with buffer := st1.buffer ++ [b],
                    pol := pol.onBlockProcessed (pol.onWrite st1.pol (encSize b)) b,
                    lastBlockNum := b }, fs1, none, tr)
      else (st1, fs1, some .encodeErr, tr)

end Ethwal

namespace Ethwal

/-! ## Reader engine (src/unnamed/part_015)

A segment (`Seg`) pairs its catalog entry bounds with the stream of block
numbers its decoder yields in order (block payloads are irrelevant to the
seek/read claims; `structs.IsZero(block)` is modelled as the number being
zero).  The reader state holds `currFileIndex`, the decoder (`none` models
`decoder == nil`, `some p` a decoder positioned before the `p`-th record of
the current segment) and `lastBlockNum`.  Filesystem opens always succeed
and prefetch buffers are transparent (`PrefetchClear` has no observable
effect on the decoded stream). -/

structure Seg where
  FirstBlockNum : Nat
  LastBlockNum : Nat
  blocks : List Nat
deriving Repr, DecidableEq

/-- The catalog entries of a segment list. -/
def segFiles (segs : List Seg) : List File :=
  segs.map (fun s => ⟨s.FirstBlockNum, s.LastBlockNum⟩)

/-- Decoder stream of segment `i`. -/
def segBlocks (segs : List Seg) (i : Nat) : List Nat :=
  ((segs.get? i).getD ⟨0, 0, []⟩).blocks

/-- `decoder.Decode`: the next record of segment `i` at position `pos`;
`none` is the decoder's `io.EOF`. -/
def decodeAt (segs : List Seg) (i pos : Nat) : Option Nat :=
  (segBlocks segs i).get? pos

/-- `(*reader[T]).isBlockWithin`. -/
def blockWithin (segs : List Seg) (i n : Nat) : Bool :=
  decide (((segs.get? i).getD ⟨0, 0, []⟩).FirstBlockNum ≤ n) &&
  decide (n ≤ ((segs.get? i).getD ⟨0, 0, []⟩).LastBlockNum)

structure RState where
  currFileIndex : Nat
  pos : Option Nat
  lastBlockNum : Nat
deriving Repr, DecidableEq

/-- Reader state right after `NewReader`. -/
def initialReader : RState := ⟨0, none, 0⟩

inductive ReadResult where
  | ok (blockNum : Nat)
  | eof
  | outOfRange (blockNum : Nat)
  | decodeErr
  | stuck
deriving Repr, DecidableEq

/-- The `for structs.IsZero(block) || block.Number <= r.lastBlockNum` loop of
`(*reader[T]).Read`, starting with an open decoder on segment `i` at
position `pos`.  Each successful in-segment decode either errors on the
range check, returns (when the block is non-zero and above `lastBlockNum`),
or skips and loops; decoder end-of-stream advances to segment `i+1` and
returns its first record immediately (after the range check), or surfaces
end-of-stream/decode failure.  The loop re-decodes at most once per
remaining record of segment `i`, so `read` passes a sufficient iteration
budget and the `stuck` result is unreachable. -/
def readLoopFuel (segs : List Seg) :
    Nat → Nat → Nat → Nat → RState × ReadResult
  | 0, i, pos, lastBlockNum => (⟨i, some pos, lastBlockNum⟩, .stuck)
  | fuel + 1, i, pos, lastBlockNum =>
    match decodeAt segs i pos with
    | some n =>
      if !blockWithin segs i n then (⟨i, some (pos + 1), lastBlockNum⟩, .outOfRange n)
      else if n ≠ 0 ∧ lastBlockNum < n then (⟨i, some (pos + 1), n⟩, .ok n)
      else readLoopFuel segs fuel i (pos + 1) lastBlockNum
    | none =>
      if segs.length ≤ i + 1 then (⟨i, some pos, lastBlockNum⟩, .eof)
      else
        match decodeAt segs (i + 1) 0 with
        | none => (⟨i + 1, some 0, lastBlockNum⟩, .decodeErr)
        | some n =>
          if !blockWithin segs (i + 1) n then
            (⟨i + 1, some 1, if n ≠ 0 then n else lastBlockNum⟩, .outOfRange n)
          else (⟨i + 1, some 1, if n ≠ 0 then n else lastBlockNum⟩, .ok n)

/-- `(*reader[T]).Read`: open segment 0 lazily when no decoder is active
(`io.EOF` on an empty catalog), then run the decode loop. -/
def read (segs : List Seg) (st : RState) : RState × ReadResult :=
  match st.pos with
  | none =>
    if segs.length = 0 then (st, .eof)
    else readLoopFuel segs ((segBlocks segs 0).length + 1) 0 0 st.lastBlockNum
  | some p =>
    readLoopFuel segs ((segBlocks segs st.currFileIndex).length - p + 1)
      st.currFileIndex p st.lastBlockNum

inductive SeekResult where
  | ok
  | eof
deriving Repr, DecidableEq

/-- `(*reader[T]).Seek`: binary-search the catalog via `FindFile`
(`ErrFileNotExist` becomes `io.EOF` with the state untouched); when the
target segment differs from the active one, clear the prefetch of the former
next segment (no observable effect here) and open the target (fresh decoder
at position 0); finally set `lastBlockNum = blockNum - 1` (uint64). -/
def seek (segs : List Seg) (st : RState) (blockNum : Nat) : RState × SeekResult :=
  match FindFile (segFiles segs) blockNum with
  | none => (st, .eof)
  | some (_, fidx) =>
    if st.currFileIndex ≠ fidx then
      (⟨fidx, some 0, pred64 blockNum⟩, .ok)
    else
      ({ st with lastBlockNum := pred64 blockNum }, .ok)

/-- Stream of all persisted blocks, in segment order. -/
def allBlocks (segs : List Seg) : List Nat :=
  segs.flatMap Seg.blocks

/-- A well-formed sealed segment, as produced by the writer: a non-empty
strictly increasing record stream, all records within the declared bounds,
the last record equal to `LastBlockNum`, and block numbers starting at 1. -/
def segWF (s : Seg) : Prop :=
  s.blocks ≠ [] ∧
  List.Chain' (fun a b => a < b) s.blocks ∧
  (∀ b ∈ s.blocks, s.FirstBlockNum ≤ b ∧ b ≤ s.LastBlockNum) ∧
  s.blocks.getLast? = some s.LastBlockNum ∧
  1 ≤ s.FirstBlockNum

/-- A well-formed persisted WAL: well-formed segments with disjoint
ascending catalog ranges (spec invariant I1). -/
def walWF (segs : List Seg) : Prop :=
  (∀ s ∈ segs, segWF s) ∧
  List.Chain' (fun a b => a.LastBlockNum < b.FirstBlockNum) segs

end Ethwal

namespace Ethwal

/-! ## Secondary index watermark (src/index.go, src/index_file.go)

The per-index filesystem holds the 8-byte watermark file
`<name>/indexed` (`none` when absent) and the per-value bitmap files;
bitmaps are modelled by their sets of compound keys as lists.  Go's map
iteration over `IndexUpdate.Data` is modelled by the stored list order. -/

structure IdxFS where
  wmFile : Option Nat
  bitmaps : List (String × List Nat)
deriving Repr, DecidableEq

structure IndexUpdate where
  Data : List (String × List Nat)
  LastBlockNum : Nat
deriving Repr, DecidableEq

inductive IdxEvent where
  | writeBitmapEv (value : String)
  | writeWatermarkEv (n : Nat)
deriving Repr, DecidableEq

/-- Association-list lookup for a value's stored bitmap file. -/
def lookupBM : List (String × List Nat) → String → Option (List Nat)
  | [], _ => none
  | (v, bm) :: rest, key => if v = key then some bm else lookupBM rest key

/-- Association-list update (create-or-overwrite of a bitmap file). -/
def setBM : List (String × List Nat) → String → List Nat → List (String × List Nat)
  | [], key, bm => [(key, bm)]
  | (v, old) :: rest, key, bm =>
    if v = key then (v, bm) :: rest else (v, old) :: setBM rest key bm

/-- Roaring `bmap.Or(bmUpdate)`: set union of the stored compound keys. -/
def mergeOr (old new : List Nat) : List Nat :=
  old ++ new.filter (fun x => decide (x ∉ old))

/-- `IndexFile.Read`: a missing bitmap file reads as the empty bitmap. -/
def readBM (fs : IdxFS) (value : String) : List Nat :=
  (lookupBM fs.bitmaps value).getD []

/-- `(*Index[T]).LastBlockNumIndexed`: return the cached value when the
atomic cache is set; otherwise read `<name>/indexed` (0 when the file does
not exist, without setting the cache) and cache it. -/
def lastBlockNumIndexed (cache : Option Nat) (fs : IdxFS) : Nat × Option Nat :=
  match cache with
  | some v => (v, some v)
  | none =>
    match fs.wmFile with
    | none => (0, none)
    | some v => (v, some v)

/-- `(*Index[T]).storeLastBlockNumIndexed`: read the current watermark and
refuse to lower it; otherwise write the new value and cache it. -/
def storeLastBlockNumIndexed (cache : Option Nat) (fs : IdxFS) (n : Nat) :
    Option Nat × IdxFS × List IdxEvent :=
  if n ≤ (lastBlockNumIndexed cache fs).1 then ((lastBlockNumIndexed cache fs).2, fs, [])
  else (some n, { fs with wmFile := some n }, [.writeWatermarkEv n])

/-- The bitmap loop of `(*Index[T]).Store`: skip empty update bitmaps, and
read-merge-write each non-empty one. -/
def storeBitmaps (fs : IdxFS) : List (String × List Nat) → IdxFS × List IdxEvent
  | [] => (fs, [])
  | (v, bm) :: rest =>
    if bm.isEmpty then storeBitmaps fs rest
    else
      ((storeBitmaps { fs with bitmaps := setBM fs.bitmaps v (mergeOr (readBM fs v) bm) } rest).1,
        .writeBitmapEv v ::
          (storeBitmaps { fs with bitmaps := setBM fs.bitmaps v (mergeOr (readBM fs v) bm) } rest).2)

/-- `(*Index[T]).Store`: no-op when the watermark already covers the update;
otherwise write every non-empty value bitmap, then advance the watermark. -/
def storeIndex (cache : Option Nat) (fs : IdxFS) (u : IndexUpdate) :
    Option Nat × IdxFS × List IdxEvent :=
  if u.LastBlockNum ≤ (lastBlockNumIndexed cache fs).1 then
    ((lastBlockNumIndexed cache fs).2, fs, [])
  else
    ((storeLastBlockNumIndexed (lastBlockNumIndexed cache fs).2
        (storeBitmaps fs u.Data).1 u.LastBlockNum).1,
      (storeLastBlockNumIndexed (lastBlockNumIndexed cache fs).2
        (storeBitmaps fs u.Data).1 u.LastBlockNum).2.1,
      (storeBitmaps fs u.Data).2 ++
        (storeLastBlockNumIndexed (lastBlockNumIndexed cache fs).2
          (storeBitmaps fs u.Data).1 u.LastBlockNum).2.2)

/-- Observable watermark of an index state. -/
def wmValue (cache : Option Nat) (fs : IdxFS) : Nat :=
  (lastBlockNumIndexed cache fs).1

end Ethwal

namespace Ethwal

/-! ## Filter builder (src/unnamed/part_020)

A filter's evaluation result is a roaring bitmap, modelled by its list of
compound keys (`none` models Go's nil `*roaring64.Bitmap` that `And`/`Or`
return when every operand is nil).  `Eq` closures capture the builder's
index map and filesystem; fetching a missing index or value yields the
empty bitmap. -/

/-- Roaring `bmap.And`: set intersection. -/
def bAnd (b1 b2 : List Nat) : List Nat :=
  b1.filter (fun x => decide (x ∈ b2))

/-- Roaring `bmap.Or`: set union (see `mergeOr`, stated over clones here). -/
def bOr (b1 b2 : List Nat) : List Nat :=
  b1 ++ b2.filter (fun x => decide (x ∉ b1))

/-- `(*filterBuilder[T]).And`: skip nil operands; clone the first non-nil
child's bitmap and AND-reduce the rest. -/
def filterAnd (filters : List (Option (List Nat))) : Option (List Nat) :=
  filters.foldl (fun bmap f =>
    match f with
    | none => bmap
    | some fb =>
      match bmap with
      | none => some fb
      | some b => some (bAnd b fb)) none

/-- `(*filterBuilder[T]).Or`: skip nil operands; clone the first non-nil
child's bitmap and OR-reduce the rest. -/
def filterOr (filters : List (Option (List Nat))) : Option (List Nat) :=
  filters.foldl (fun bmap f =>
    match f with
    | none => bmap
    | some fb =>
      match bmap with
      | none => some fb
      | some b => some (bOr b fb)) none

/-- `(*filterBuilder[T]).Eq`: normalize the index name; an unknown index or
a failed fetch yields the empty bitmap, otherwise the fetched bitmap. -/
def filterEq (indexes : List String) (fetch : String → String → List Nat)
    (index key : String) : List Nat :=
  if index.toLower ∈ indexes then fetch index.toLower key else []

end Ethwal

namespace Ethwal

/-! ## No-gap writer (src/unnamed/part_025) -/

/-- Modelled from the spec: the constant `NoBlockNum` referenced by
`noGapWriter.Write` is declared elsewhere in this repository and its
definition is missing from src/.  Block numbers are unsigned 64-bit values
and the spec treats the writer as having a distinguished "no block yet"
state; `NoBlockNum` is taken as the maximal uint64 value `2^64 - 1`, the
only value for which `lastBlockNum + 1` wraps to block 0, letting a fresh
stream accept block 0. -/
def NoBlockNum : Nat := U64 - 1

/-- The `for i := n.lastBlockNum + 1; i < b.Number; i++` gap-filling loop:
write placeholder blocks in order, stopping at the first inner error. -/
def writeGapBlocks (innerOk : Nat → Bool) : List Nat → List Nat × Bool
  | [] => ([], true)
  | i :: rest =>
    if innerOk i then
      match writeGapBlocks innerOk rest with
      | (calls, ok) => (i :: calls, ok)
    else ([i], false)

/-- `(*noGapWriter[T]).Write`: the deferred `n.lastBlockNum = b.Number` runs
on every path, so the returned state is always `b.Number`; the result is
`(newLastBlockNum, returned-nil?, inner-writer calls in order)`.  The inner
writer is an oracle `innerOk` saying which block writes succeed. -/
def noGapWrite (innerOk : Nat → Bool) (last bNum : Nat) : Nat × Bool × List Nat :=
  if last ≠ NoBlockNum ∧ bNum ≤ last then (bNum, true, [])
  else if bNum = u64 (last + 1) then (bNum, innerOk bNum, [bNum])
  else
    let gaps := List.range' (u64 (last + 1)) (bNum - u64 (last + 1))
    match writeGapBlocks innerOk gaps with
    | (calls, true) => (bNum, innerOk bNum, calls ++ [bNum])
    | (calls, false) => (bNum, false, calls)

end Ethwal

namespace Ethwal

/-! ## Verify-hash writer (src/writer_with_verify_hash.go)

Hashes (`common.Hash`) are modelled as `Nat` with 0 the zero hash.  The
`BlockHashGetter` is an oracle `Nat → Option Nat` (`none` = fetch error);
the inner writer is an oracle on blocks. -/

structure VBlock where
  hash : Nat
  parent : Nat
  number : Nat
deriving Repr, DecidableEq

inductive VEvent where
  | getHashEv (blockNum : Nat)
  | innerWriteEv (b : VBlock)
deriving Repr, DecidableEq

/-- `(*writerWithVerifyHash[T]).Write`: block number 1 is forwarded with no
validation and `prevHash` is set on success; otherwise the expected parent
is the cached `prevHash` or, when that is zero, the getter's result for
`b.Number - 1` (uint64); a mismatch or an inner-write failure resets
`prevHash` to zero.  Returns `(newPrevHash, returned-nil?, events)`. -/
def vhWrite (getter : Nat → Option Nat) (innerOk : VBlock → Bool)
    (prevHash : Nat) (b : VBlock) : Nat × Bool × List VEvent :=
  if b.number = 1 then
    if innerOk b then (b.hash, true, [.innerWriteEv b])
    else (prevHash, false, [.innerWriteEv b])
  else
    match (if prevHash = 0
           then (getter (pred64 b.number)).map (fun h => (h, [VEvent.getHashEv (pred64 b.number)]))
           else some (prevHash, [])) with
    | none => (prevHash, false, [.getHashEv (pred64 b.number)])
    | some (prev, evs) =>
      if b.parent ≠ prev then (0, false, evs)
      else if innerOk b then (b.hash, true, evs ++ [.innerWriteEv b])
      else (0, false, evs ++ [.innerWriteEv b])

end Ethwal

-- ===== end of definitions =====

namespace Ethwal

/-! ## Bitwise lemmas used for the compound-ID claims -/

theorem shiftLeft16_mod_u64 (b : Nat) (hb : b < 2 ^ 48) :
    (b <<< 16) % U64 = b * 2 ^ 16 := by
  rw [Nat.shiftLeft_eq, U64]
  exact Nat.mod_eq_of_lt (by
    calc b * 2 ^ 16 < 2 ^ 48 * 2 ^ 16 := by
          exact Nat.mul_lt_mul_of_lt_of_le hb (le_refl _) (by norm_num)
      _ = 2 ^ 64 := by norm_num)

theorem mul_pow16_lor (b p : Nat) (hp : p < 2 ^ 16) :
    (b * 2 ^ 16) ||| p = b * 2 ^ 16 + p := by
  have h := Nat.mul_add_lt_is_or hp b
  rw [Nat.mul_comm b (2 ^ 16)]
  exact h.symm

theorem testBit_mask48 (j : Nat) :
    Nat.testBit 0xFFFFFFFFFFFF0000 j = (decide (16 ≤ j) && decide (j < 64)) := by
  have hmask : (0xFFFFFFFFFFFF0000 : Nat) = (2 ^ 48 - 1) <<< 16 := by
    rw [Nat.shiftLeft_eq]; norm_num
  rw [hmask, Nat.testBit_shiftLeft, Nat.testBit_two_pow_sub_one]
  by_cases h1 : 16 ≤ j
  · by_cases h2 : j < 64
    · have h3 : j - 16 < 48 := by omega
      simp [h1, h2, h3]
    · have h3 : ¬ (j - 16 < 48) := by omega
      simp [h1, h2, h3]
  · simp [h1, show ¬ (j ≥ 16) from h1]

theorem land_high_mask (b p : Nat) (hb : b < 2 ^ 48) (hp : p < 2 ^ 16) :
    (b * 2 ^ 16 + p) &&& 0xFFFFFFFFFFFF0000 = b * 2 ^ 16 := by
  rw [← mul_pow16_lor b p hp]
  have hbshift : b * 2 ^ 16 = b <<< 16 := (Nat.shiftLeft_eq b 16).symm
  rw [hbshift]
  apply Nat.eq_of_testBit_eq
  intro j
  rw [Nat.testBit_land, Nat.testBit_lor, testBit_mask48, Nat.testBit_shiftLeft]
  rcases Nat.lt_or_ge j 16 with hj | hj
  · have h16 : ¬ (j ≥ 16) := by omega
    have h16' : ¬ (16 ≤ j) := by omega
    simp [h16, h16']
  · have hp' : p.testBit j = false :=
      Nat.testBit_lt_two_pow (lt_of_lt_of_le hp (Nat.pow_le_pow_right (by norm_num) hj))
    rcases Nat.lt_or_ge j 64 with h64 | h64
    · simp [hp', hj, h64, show j ≥ 16 from hj]
    · have h48 : 48 ≤ j - 16 := by omega
      have hb' : b.testBit (j - 16) = false :=
        Nat.testBit_lt_two_pow (lt_of_lt_of_le hb (Nat.pow_le_pow_right (by norm_num) h48))
      simp [hp', hj, h64, hb', show j ≥ 16 from hj]

theorem newIndexCompoundID_eq (b p : Nat) (hb : b < 2 ^ 48) (hp : p < 2 ^ 16) :
    NewIndexCompoundID b p = b * 2 ^ 16 + p := by
  unfold NewIndexCompoundID
  rw [shiftLeft16_mod_u64 b hb, Nat.mod_eq_of_lt (show p < U16 from hp)]
  exact mul_pow16_lor b p hp

/-- C5: Compound-key bit-exactness.  For every block number `b < 2^48` and
16-bit position `p`, `NewIndexCompoundID(b, p)` equals `(b << 16) | p` in
unsigned 64-bit arithmetic (no wrap occurs, so it equals `b * 2^16 + p`),
`BlockNumber` recovers `b` via the high-48-bit mask and shift, `DataIndex`
recovers `p` via the low 16-bit mask, and `Split` round-trips `(b, p)`. -/
theorem c5_compound_key_bit_exact (b p : Nat) (hb : b < 2 ^ 48) (hp : p < 2 ^ 16) :
    NewIndexCompoundID b p = (b <<< 16) ||| p ∧
    NewIndexCompoundID b p = b * 2 ^ 16 + p ∧
    BlockNumber (NewIndexCompoundID b p) = b ∧
    DataIndex (NewIndexCompoundID b p) = p ∧
    SplitID (NewIndexCompoundID b p) = (b, p) := by
  have he : NewIndexCompoundID b p = b * 2 ^ 16 + p := newIndexCompoundID_eq b p hb hp
  have hbn : BlockNumber (NewIndexCompoundID b p) = b := by
    rw [he]
    unfold BlockNumber
    rw [land_high_mask b p hb hp, Nat.shiftRight_eq_div_pow]
    exact Nat.mul_div_cancel b (by norm_num)
  have hdi : DataIndex (NewIndexCompoundID b p) = p := by
    rw [he]
    unfold DataIndex
    have h1 : (b * 2 ^ 16 + p) % U16 = p := by
      rw [U16]
      omega
    rw [h1, show (0xFFFF : Nat) = 2 ^ 16 - 1 by norm_num,
      Nat.and_pow_two_sub_one_eq_mod]
    exact Nat.mod_eq_of_lt hp
  refine ⟨?_, he, hbn, hdi, ?_⟩
  · rw [he, Nat.shiftLeft_eq]
    exact (mul_pow16_lor b p hp).symm
  · unfold SplitID
    rw [hbn, hdi]

/-- Witness for C5 at a concrete input. -/
theorem c5_witness :
    (5 : Nat) < 2 ^ 48 ∧ (3 : Nat) < 2 ^ 16 ∧
    NewIndexCompoundID 5 3 = 5 * 2 ^ 16 + 3 ∧
    BlockNumber (NewIndexCompoundID 5 3) = 5 ∧
    DataIndex (NewIndexCompoundID 5 3) = 3 := by
  have h := c5_compound_key_bit_exact 5 3 (by norm_num) (by norm_num)
  exact ⟨by norm_num, by norm_num, h.2.1, h.2.2.1, h.2.2.2.1⟩

end Ethwal

namespace Ethwal

/-! ## Lemmas about sort.Search and FindFile -/

theorem sortSearchFuel_bounds (f : Nat → Bool) :
    ∀ n i j, i ≤ j → i ≤ sortSearchFuel f n i j ∧ sortSearchFuel f n i j ≤ j := by
  intro n
  induction n with
  | zero =>
    intro i j hij
    exact ⟨Nat.le_refl i, hij⟩
  | succ n ih =>
    intro i j hij
    simp only [sortSearchFuel]
    by_cases hlt : i < j
    · simp only [hlt, if_true]
      cases hf : f ((i + j) / 2) with
      | true =>
        simp only [if_true]
        have h := ih i ((i + j) / 2) (by omega)
        omega
      | false =>
        simp only [Bool.false_eq_true, if_false]
        have h := ih ((i + j) / 2 + 1) j (by omega)
        omega
    · simp only [hlt, if_false]
      exact ⟨Nat.le_refl i, hij⟩

theorem sortSearchFuel_spec (f : Nat → Bool) :
    ∀ n i j, j - i ≤ n → i ≤ j →
      (∀ a b, a ≤ b → b < j → f a = true → f b = true) →
      (∀ k, i ≤ k → k < sortSearchFuel f n i j → f k = false) ∧
      (∀ k, sortSearchFuel f n i j ≤ k → k < j → f k = true) := by
  intro n
  induction n with
  | zero =>
    intro i j hn hij _
    have : i = j := by omega
    subst this
    simp only [sortSearchFuel]
    constructor
    · intro k hk1 hk2; omega
    · intro k hk1 hk2; omega
  | succ n ih =>
    intro i j hn hij hmono
    simp only [sortSearchFuel]
    by_cases hlt : i < j
    · simp only [hlt, if_true]
      cases hf : f ((i + j) / 2) with
      | true =>
        simp only [if_true]
        have hmono' : ∀ a b, a ≤ b → b < (i + j) / 2 → f a = true → f b = true := by
          intro a b hab hb ha
          exact hmono a b hab (by omega) ha
        obtain ⟨h1, h2⟩ := ih i ((i + j) / 2) (by omega) (by omega) hmono'
        refine ⟨h1, ?_⟩
        intro k hk1 hk2
        by_cases hkm : k < (i + j) / 2
        · exact h2 k hk1 hkm
        · exact hmono ((i + j) / 2) k (by omega) hk2 hf
      | false =>
        simp only [Bool.false_eq_true, if_false]
        obtain ⟨h1, h2⟩ := ih ((i + j) / 2 + 1) j (by omega) (by omega) hmono
        refine ⟨?_, h2⟩
        intro k hk1 hk2
        by_cases hkm : (i + j) / 2 + 1 ≤ k
        · exact h1 k hkm hk2
        · -- k ≤ (i+j)/2 : if f k were true, monotonicity would force f ((i+j)/2)
          cases hfk : f k with
          | false => rfl
          | true =>
            have := hmono k ((i + j) / 2) (by omega) (by omega) hfk
            rw [this] at hf
            exact absurd hf (by simp)
    · simp only [hlt, if_false]
      constructor
      · intro k hk1 hk2; omega
      · intro k hk1 hk2; omega

theorem sortSearch_bounds (f : Nat → Bool) (i j : Nat) (hij : i ≤ j) :
    i ≤ sortSearch f i j ∧ sortSearch f i j ≤ j :=
  sortSearchFuel_bounds f (j - i) i j hij

theorem sortSearch_spec (f : Nat → Bool) (i j : Nat) (hij : i ≤ j)
    (hmono : ∀ a b, a ≤ b → b < j → f a = true → f b = true) :
    (∀ k, i ≤ k → k < sortSearch f i j → f k = false) ∧
    (∀ k, sortSearch f i j ≤ k → k < j → f k = true) :=
  sortSearchFuel_spec f (j - i) i j (Nat.le_refl _) hij hmono

theorem lastAt_get (files : List File) (k : Nat) (h : k < files.length) :
    lastAt files k = (files.get ⟨k, h⟩).LastBlockNum := by
  unfold lastAt
  rw [List.get?_eq_get h]
  rfl

theorem lastAt_succ_lt (files : List File) (hwf : fileIndexWF files)
    (k : Nat) (h : k + 1 < files.length) : lastAt files k < lastAt files (k + 1) := by
  obtain ⟨hfl, hchain⟩ := hwf
  rw [List.chain'_iff_get] at hchain
  have h1 := hchain k (by omega)
  have h2 := hfl (files.get ⟨k + 1, h⟩) (files.get_mem _ _)
  rw [lastAt_get files k (by omega), lastAt_get files (k + 1) h]
  omega

theorem lastAt_mono (files : List File) (hwf : fileIndexWF files) :
    ∀ d a, a + d < files.length → lastAt files a ≤ lastAt files (a + d) := by
  intro d
  induction d with
  | zero => intro a _; exact Nat.le_refl _
  | succ d ih =>
    intro a h
    rw [Nat.add_succ, Nat.succ_eq_add_one]
    have h1 := ih a (by omega)
    have h2 := lastAt_succ_lt files hwf (a + d) (by omega)
    omega

theorem findFile_pred_mono (files : List File) (hwf : fileIndexWF files) (blockNum : Nat) :
    ∀ a b, a ≤ b → b < files.length →
      decide (blockNum ≤ lastAt files a) = true →
      decide (blockNum ≤ lastAt files b) = true := by
  intro a b hab hb ha
  rw [decide_eq_true_eq] at ha ⊢
  have := lastAt_mono files hwf (b - a) a (by omega)
  have hba : a + (b - a) = b := by omega
  rw [hba] at this
  omega

theorem findFileIdx_le (files : List File) (blockNum : Nat) :
    findFileIdx files blockNum ≤ files.length :=
  (sortSearch_bounds _ 0 files.length (by omega)).2

theorem findFileIdx_spec (files : List File) (hwf : fileIndexWF files) (blockNum : Nat) :
    (∀ k, k < findFileIdx files blockNum → lastAt files k < blockNum) ∧
    (∀ k, findFileIdx files blockNum ≤ k → k < files.length → blockNum ≤ lastAt files k) := by
  obtain ⟨h1, h2⟩ := sortSearch_spec (fun k => decide (blockNum ≤ lastAt files k))
    0 files.length (by omega)
    (findFile_pred_mono files hwf blockNum)
  constructor
  · intro k hk
    have := h1 k (Nat.zero_le k) hk
    rw [decide_eq_false_iff_not] at this
    omega
  · intro k hk1 hk2
    have := h2 k hk1 hk2
    rw [decide_eq_true_eq] at this
    exact this

/-- `FindFile` fails (returns `ErrFileNotExist`) iff no catalog entry has
`LastBlockNum ≥ blockNum`. -/
theorem findFile_none_iff (files : List File) (hwf : fileIndexWF files) (blockNum : Nat) :
    FindFile files blockNum = none ↔ ∀ k, k < files.length → lastAt files k < blockNum := by
  unfold FindFile
  constructor
  · intro h k hk
    by_cases hlt : findFileIdx files blockNum < files.length
    · rw [dif_pos hlt] at h
      exact absurd h (by simp)
    · have hidx : findFileIdx files blockNum = files.length := by
        have := findFileIdx_le files blockNum
        omega
      exact (findFileIdx_spec files hwf blockNum).1 k (by omega)
  · intro h
    rw [dif_neg]
    intro hlt
    have := (findFileIdx_spec files hwf blockNum).2 _ (Nat.le_refl _) hlt
    have := h _ hlt
    omega

theorem findFile_some_exists (files : List File) (hwf : fileIndexWF files) (blockNum : Nat)
    (h : FindFile files blockNum ≠ none) :
    ∃ e ∈ files, blockNum ≤ e.LastBlockNum := by
  unfold FindFile at h
  by_cases hlt : findFileIdx files blockNum < files.length
  · refine ⟨files.get ⟨findFileIdx files blockNum, hlt⟩, files.get_mem _ _, ?_⟩
    have := (findFileIdx_spec files hwf blockNum).2 _ (Nat.le_refl _) hlt
    rw [lastAt_get files _ hlt] at this
    exact this
  · rw [dif_neg hlt] at h
    exact absurd rfl h

end Ethwal

namespace Ethwal

/-! ## C6: AddFile overlap rejection -/

theorem lastAt_forall_iff (files : List File) (n : Nat) :
    (∀ k, k < files.length → lastAt files k < n) ↔
    (∀ e ∈ files, e.LastBlockNum < n) := by
  constructor
  · intro h e he
    obtain ⟨⟨k, hk⟩, rfl⟩ := List.mem_iff_get.mp he
    have := h k hk
    rw [lastAt_get files k hk] at this
    exact this
  · intro h k hk
    rw [lastAt_get files k hk]
    exact h _ (List.get_mem files k hk)

/-- C6 counterexample: the catalog `[{10,20}]` and the new file `{5,7}` do
not overlap in block range, yet `AddFile` rejects, because the rejection test
is `FindFile(file.FirstBlockNum)` succeeding, not range overlap. -/
theorem c6_counterexample :
    AddFile [⟨10, 20⟩] ⟨5, 7⟩ = .error (.alreadyExist 5) ∧
    (∀ e ∈ [(⟨10, 20⟩ : File)], ¬ overlapsRange ⟨5, 7⟩ e) := by
  constructor
  · rfl
  · decide

/-- C6 (amended): on a well-formed catalog, `AddFile(file)` returns the error
`file already exist: block N` (with `N = file.FirstBlockNum`) precisely when
some existing entry has `LastBlockNum ≥ file.FirstBlockNum` — this test
rejects every range overlap but also rejects non-overlapping files placed
before an existing range — and otherwise appends the file to the catalog. -/
theorem c6_addfile_amended (files : List File) (f : File) (hwf : fileIndexWF files) :
    (AddFile files f = .error (.alreadyExist f.FirstBlockNum) ↔
      ∃ e ∈ files, f.FirstBlockNum ≤ e.LastBlockNum) ∧
    ((∀ e ∈ files, e.LastBlockNum < f.FirstBlockNum) →
      AddFile files f = .ok (files ++ [f])) := by
  constructor
  · constructor
    · intro h
      apply findFile_some_exists files hwf f.FirstBlockNum
      intro hnone
      unfold AddFile at h
      rw [hnone] at h
      exact absurd h (by simp)
    · intro ⟨e, he, hle⟩
      unfold AddFile
      cases hff : FindFile files f.FirstBlockNum with
      | some p => rfl
      | none =>
        have hall := (findFile_none_iff files hwf f.FirstBlockNum).mp hff
        have := (lastAt_forall_iff files f.FirstBlockNum).mp hall e he
        omega
  · intro h
    unfold AddFile
    have hnone : FindFile files f.FirstBlockNum = none :=
      (findFile_none_iff files hwf f.FirstBlockNum).mpr
        ((lastAt_forall_iff files f.FirstBlockNum).mpr h)
    rw [hnone]

/-- Witness for C6 (amended) at a concrete catalog. -/
theorem c6_witness :
    fileIndexWF [(⟨1, 4⟩ : File)] ∧
    AddFile [⟨1, 4⟩] ⟨5, 8⟩ = .ok [⟨1, 4⟩, ⟨5, 8⟩] ∧
    (AddFile [⟨1, 4⟩] ⟨2, 6⟩ = .error (.alreadyExist 2) ↔
      ∃ e ∈ [(⟨1, 4⟩ : File)], (2 : Nat) ≤ e.LastBlockNum) := by
  have hwf : fileIndexWF [(⟨1, 4⟩ : File)] := ⟨by simp, by simp⟩
  refine ⟨hwf, ?_, ?_⟩
  · exact (c6_addfile_amended [⟨1, 4⟩] ⟨5, 8⟩ hwf).2 (by simp)
  · exact (c6_addfile_amended [⟨1, 4⟩] ⟨2, 6⟩ hwf).1

end Ethwal

namespace Ethwal

/-! ## C4: phantom-entry recovery -/

theorem loadFileIndex_some (fs : FSState) (c : List File) (h : fs.catalog = some c) :
    LoadFileIndex fs = (readFiles fs c, fs) := by
  unfold LoadFileIndex
  rw [h]

theorem readFiles_drop (fs : FSState) (decoded : List File) (f : File)
    (hl : decoded.getLast? = some f) (hne : FileExist fs f = false) :
    readFiles fs decoded = decoded.dropLast := by
  unfold readFiles
  rw [hl]
  show (if FileExist fs f = true then decoded else decoded.dropLast) = decoded.dropLast
  rw [hne]
  simp

theorem fileExist_catalog_irrel (fs : FSState) (cat' : Option (List File)) (g : File) :
    FileExist { fs with catalog := cat' } g = FileExist fs g := rfl

/-- C4: if the persisted catalog ends with an entry whose segment exists at
neither the content-addressed nor the legacy path, loading drops exactly that
trailing entry in memory and leaves the filesystem (hence the on-disk
catalog) untouched; consequently appending any file whose segment is never
written and re-opening yields the same in-memory `FileIndex` as before. -/
theorem c4_phantom_recovery (fs : FSState) (c : List File) (f : File)
    (hcat : fs.catalog = some c)
    (hlast : c.getLast? = some f)
    (hne : FileExist fs f = false) :
    LoadFileIndex fs = (c.dropLast, fs) ∧
    (∀ g : File, FileExist fs g = false →
      (LoadFileIndex (SaveFileIndex ((LoadFileIndex fs).1 ++ [g]) fs)).1 =
        (LoadFileIndex fs).1) := by
  have hload : LoadFileIndex fs = (c.dropLast, fs) := by
    rw [loadFileIndex_some fs c hcat, readFiles_drop fs c f hlast hne]
  refine ⟨hload, ?_⟩
  intro g hg
  rw [hload]
  simp only
  have hsave : SaveFileIndex (c.dropLast ++ [g]) fs =
      { fs with catalog := some (c.dropLast ++ [g]) } := rfl
  rw [hsave, loadFileIndex_some _ (c.dropLast ++ [g]) rfl]
  simp only
  rw [readFiles_drop _ (c.dropLast ++ [g]) g (List.getLast?_concat _)
    (by rw [fileExist_catalog_irrel]; exact hg)]
  exact List.dropLast_concat

/-- Witness for C4 at a concrete filesystem state. -/
theorem c4_witness :
    LoadFileIndex ⟨some [⟨1, 2⟩, ⟨3, 4⟩], [⟨1, 2⟩], []⟩ =
      ([⟨1, 2⟩], ⟨some [⟨1, 2⟩, ⟨3, 4⟩], [⟨1, 2⟩], []⟩) ∧
    (LoadFileIndex (SaveFileIndex
        ((LoadFileIndex ⟨some [⟨1, 2⟩, ⟨3, 4⟩], [⟨1, 2⟩], []⟩).1 ++ [⟨9, 12⟩])
        ⟨some [⟨1, 2⟩, ⟨3, 4⟩], [⟨1, 2⟩], []⟩)).1 =
      (LoadFileIndex ⟨some [⟨1, 2⟩, ⟨3, 4⟩], [⟨1, 2⟩], []⟩).1 := by
  have h := c4_phantom_recovery ⟨some [⟨1, 2⟩, ⟨3, 4⟩], [⟨1, 2⟩], []⟩
    [⟨1, 2⟩, ⟨3, 4⟩] ⟨3, 4⟩ rfl rfl (by decide)
  exact ⟨h.1, h.2 ⟨9, 12⟩ (by decide)⟩

end Ethwal

namespace Ethwal

/-! ## C2: catalog-before-segment ordering, and C3: writer idempotence -/

theorem addFile_ok_eq (files : List File) (f : File) (l : List File)
    (h : AddFile files f = .ok l) : l = files ++ [f] := by
  unfold AddFile at h
  cases hff : FindFile files f.FirstBlockNum with
  | some p => rw [hff] at h; exact absurd h (by simp)
  | none =>
    rw [hff] at h
    simp only [Except.ok.injEq] at h
    exact h.symm

theorem writeFile_trace {P : Type} (pol : RollPolicy P) (o : WOracle)
    (st : WState P) (fs : FSState) :
    ∀ tr, (writeFile pol o st fs).2.2.2 = tr →
    ∀ j f bts, tr.get? j = some (.writeSegEv f bts) →
      (∃ i, i < j ∧ ∃ fl, tr.get? i = some (.saveIndexEv fl) ∧ f ∈ fl) ∧
      (∃ i', i' < j ∧ tr.get? i' = some (.addFileEv f)) := by
  intro tr htr j f bts hj
  simp only [writeFile] at htr
  cases hadd : AddFile st.fileIndex ⟨st.firstBlockNum, st.lastBlockNum⟩ with
  | error e =>
    rw [hadd] at htr
    simp only at htr
    subst htr
    have hlen : j < 1 := by
      have h := List.get?_eq_some.mp hj
      obtain ⟨hl, _⟩ := h
      simpa using hl
    interval_cases j <;> simp_all
  | ok fi' =>
    have hfi : fi' = st.fileIndex ++ [⟨st.firstBlockNum, st.lastBlockNum⟩] :=
      addFile_ok_eq _ _ _ hadd
    rw [hadd] at htr
    simp only at htr
    cases hsave : o.saveOk with
    | false =>
      simp only [hsave] at htr
      subst htr
      have hlen : j < 2 := by
        have h := List.get?_eq_some.mp hj
        obtain ⟨hl, _⟩ := h
        simpa using hl
      interval_cases j <;> simp_all
    | true =>
      simp only [hsave] at htr
      cases hcreate : o.createOk with
      | false =>
        simp only [hcreate] at htr
        subst htr
        have hlen : j < 3 := by
          have h := List.get?_eq_some.mp hj
          obtain ⟨hl, _⟩ := h
          simpa using hl
        interval_cases j <;> simp_all
      | true =>
        simp only [hcreate] at htr
        cases hwrite : o.writeOk with
        | false =>
          simp only [hwrite] at htr
          subst htr
          have hlen : j < 4 := by
            have h := List.get?_eq_some.mp hj
            obtain ⟨hl, _⟩ := h
            simpa using hl
          interval_cases j <;> simp_all
        | true =>
          simp only [hwrite] at htr
          cases hclose : o.closeOk with
          | false =>
            simp only [hclose] at htr
            subst htr
            have hlen : j < 5 := by
              have h := List.get?_eq_some.mp hj
              obtain ⟨hl, _⟩ := h
              simpa using hl
            interval_cases j <;> simp_all
            refine ⟨⟨2, by omega, st.fileIndex ++ [⟨st.firstBlockNum, st.lastBlockNum⟩], ?_, ?_⟩,
              ⟨1, by omega, ?_⟩⟩ <;> simp_all
          | true =>
            simp only [hclose] at htr
            subst htr
            have hlen : j < 6 := by
              have h := List.get?_eq_some.mp hj
              obtain ⟨hl, _⟩ := h
              simpa using hl
            interval_cases j <;> simp_all
            refine ⟨⟨2, by omega, st.fileIndex ++ [⟨st.firstBlockNum, st.lastBlockNum⟩], ?_, ?_⟩,
              ⟨1, by omega, ?_⟩⟩ <;> simp_all

end Ethwal

namespace Ethwal

/-- C2: within every writer roll that seals a non-empty buffer, whenever the
segment bytes are written (`writeSegEv`), the catalog was already saved
(`saveIndexEv`) strictly earlier in the same roll, that saved catalog
contains the new `File` entry, and the entry had been appended (`addFileEv`)
before the save; hence a segment write never precedes the catalog save. -/
theorem c2_catalog_before_segment {P : Type} (pol : RollPolicy P) (o : WOracle)
    (st : WState P) (fs : FSState) :
    ∀ j f bts, ((rollFile pol o st fs).2.2.2).get? j = some (.writeSegEv f bts) →
      (∃ i, i < j ∧ ∃ fl, ((rollFile pol o st fs).2.2.2).get? i = some (.saveIndexEv fl) ∧
        f ∈ fl) ∧
      (∃ i', i' < j ∧ ((rollFile pol o st fs).2.2.2).get? i' = some (.addFileEv f)) := by
  have key : (rollFile pol o st fs).2.2.2 = [] ∨
      (rollFile pol o st fs).2.2.2 = (writeFile pol o st fs).2.2.2 := by
    unfold rollFile
    rcases Bool.eq_false_or_eq_true st.encOpen with henc | henc
    · rw [henc]
      by_cases hle : st.lastBlockNum < st.firstBlockNum
      · rw [if_pos hle]
        simp
      · rw [if_neg hle]
        rcases hwf : writeFile pol o st fs with ⟨st1, fs1, err, tr⟩
        cases err with
        | some e => right; rfl
        | none => right; rfl
    · rw [henc]
      simp
  rcases key with h | h
  · intro j f bts hj
    rw [h] at hj
    simp at hj
  · rw [h]
    exact writeFile_trace pol o st fs _ rfl

/-- Witness for C2: a concrete successful roll; the segment write sits at
trace position 4, after the catalog save at position 2. -/
theorem c2_witness :
    ((rollFile (fileSizeRollPolicy 8) ⟨true, true, true, true, true⟩
        ⟨[1, 2], true, 1, 2, [], 7⟩ ⟨none, [], []⟩).2.2.2).get? 4 =
      some (.writeSegEv ⟨1, 2⟩ [1, 2]) ∧
    ((∃ i, i < 4 ∧ ∃ fl, ((rollFile (fileSizeRollPolicy 8) ⟨true, true, true, true, true⟩
        ⟨[1, 2], true, 1, 2, [], 7⟩ ⟨none, [], []⟩).2.2.2).get? i =
          some (.saveIndexEv fl) ∧ (⟨1, 2⟩ : File) ∈ fl) ∧
      (∃ i', i' < 4 ∧ ((rollFile (fileSizeRollPolicy 8) ⟨true, true, true, true, true⟩
        ⟨[1, 2], true, 1, 2, [], 7⟩ ⟨none, [], []⟩).2.2.2).get? i' =
          some (.addFileEv ⟨1, 2⟩))) :=
  ⟨by decide, c2_catalog_before_segment (fileSizeRollPolicy 8) ⟨true, true, true, true, true⟩
      ⟨[1, 2], true, 1, 2, [], 7⟩ ⟨none, [], []⟩ 4 ⟨1, 2⟩ [1, 2] (by decide)⟩

/-- C3: `Write(ctx, b)` with `b.Number ≤ lastBlockNum` returns nil, performs
no filesystem events, and leaves the entire writer state (buffer, encoder,
block bounds, file index, policy state) and the filesystem unchanged; and
after any successful `Write(ctx, b)`, immediately re-writing the same block
is such a no-op, so the block is persisted exactly once. -/
theorem c3_writer_idempotent {P : Type} (pol : RollPolicy P) (encSize : Nat → Nat)
    (o : WOracle) (st : WState P) (fs : FSState) (b : Nat) :
    (b ≤ st.lastBlockNum → writeW pol encSize o st fs b = (st, fs, none, [])) ∧
    (∀ st1 fs1 tr, writeW pol encSize o st fs b = (st1, fs1, none, tr) →
      writeW pol encSize o st1 fs1 b = (st1, fs1, none, [])) := by
  constructor
  · intro hb
    unfold writeW
    rw [if_pos (show st.lastBlockNum ≥ b from hb)]
  · intro st1 fs1 tr h
    by_cases hb : st.lastBlockNum ≥ b
    · unfold writeW at h
      rw [if_pos hb] at h
      simp only [Prod.mk.injEq] at h
      obtain ⟨h1, h2, _, _⟩ := h
      subst h1
      subst h2
      unfold writeW
      rw [if_pos hb]
    · unfold writeW at h
      rw [if_neg hb] at h
      rcases hroll : (if (!st.encOpen || pol.ShouldRoll st.pol) = true
          then rollFile pol o st fs else (st, fs, none, [])) with ⟨rst, rfs, rerr, rtr⟩
      rw [hroll] at h
      cases rerr with
      | some e => simp at h
      | none =>
        rcases Bool.eq_false_or_eq_true o.encodeOk with henc | henc
        · rw [henc] at h
          simp only [eq_self_iff_true, if_true, Prod.mk.injEq] at h
          obtain ⟨h1, h2, _, _⟩ := h
          subst h2
          rw [← h1]
          unfold writeW
          rw [if_pos (Nat.le_refl b)]
        · rw [henc] at h
          simp at h

/-- Witness for C3 at concrete inputs: a duplicate write (block 3 against
`lastBlockNum = 5`) is a no-op, and re-writing block 7 right after a
successful write of block 7 is a no-op. -/
theorem c3_witness :
    writeW (fileSizeRollPolicy 100) (fun _ => 1) ⟨true, true, true, true, true⟩
      ⟨[], true, 6, 5, [⟨1, 5⟩], 0⟩ ⟨some [⟨1, 5⟩], [⟨1, 5⟩], []⟩ 3 =
      (⟨[], true, 6, 5, [⟨1, 5⟩], 0⟩, ⟨some [⟨1, 5⟩], [⟨1, 5⟩], []⟩, none, []) ∧
    writeW (fileSizeRollPolicy 100) (fun _ => 1) ⟨true, true, true, true, true⟩
      ⟨[7], true, 6, 7, [⟨1, 5⟩], 1⟩ ⟨some [⟨1, 5⟩], [⟨1, 5⟩], []⟩ 7 =
      (⟨[7], true, 6, 7, [⟨1, 5⟩], 1⟩, ⟨some [⟨1, 5⟩], [⟨1, 5⟩], []⟩, none, []) := by
  constructor
  · exact (c3_writer_idempotent (fileSizeRollPolicy 100) (fun _ => 1)
      ⟨true, true, true, true, true⟩ ⟨[], true, 6, 5, [⟨1, 5⟩], 0⟩
      ⟨some [⟨1, 5⟩], [⟨1, 5⟩], []⟩ 3).1 (by norm_num)
  · exact (c3_writer_idempotent (fileSizeRollPolicy 100) (fun _ => 1)
      ⟨true, true, true, true, true⟩ ⟨[], true, 6, 5, [⟨1, 5⟩], 0⟩
      ⟨some [⟨1, 5⟩], [⟨1, 5⟩], []⟩ 7).2
      ⟨[7], true, 6, 7, [⟨1, 5⟩], 1⟩ ⟨some [⟨1, 5⟩], [⟨1, 5⟩], []⟩ [] (by decide)

end Ethwal


namespace Ethwal

/-! ## C1: seek/read correctness -/

theorem lastAt_segFiles (segs : List Seg) (k : Nat) (s : Seg)
    (h : segs.get? k = some s) : lastAt (segFiles segs) k = s.LastBlockNum := by
  unfold lastAt segFiles
  rw [List.get?_map, h]
  rfl

theorem segFiles_length (segs : List Seg) : (segFiles segs).length = segs.length :=
  List.length_map _ _

theorem segWF_first_le_last (s : Seg) (h : segWF s) : s.FirstBlockNum ≤ s.LastBlockNum := by
  obtain ⟨hne, _, hb, _, _⟩ := h
  cases hblocks : s.blocks with
  | nil => exact absurd hblocks hne
  | cons a t =>
    have ha : a ∈ s.blocks := by rw [hblocks]; exact List.mem_cons_self a t
    have := hb a ha
    omega

theorem walWF_fileIndexWF (segs : List Seg) (h : walWF segs) :
    fileIndexWF (segFiles segs) := by
  obtain ⟨hseg, hchain⟩ := h
  constructor
  · intro f hf
    obtain ⟨s, hs, rfl⟩ := List.mem_map.mp hf
    exact segWF_first_le_last s (hseg s hs)
  · unfold segFiles
    rw [List.chain'_map]
    exact hchain

theorem head_lt_all : ∀ (t : List Seg) (a : Seg),
    (∀ s ∈ t, segWF s) →
    List.Chain (fun x y => x.LastBlockNum < y.FirstBlockNum) a t →
    ∀ j s, t.get? j = some s → a.LastBlockNum < s.FirstBlockNum := by
  intro t
  induction t with
  | nil => intro a _ _ j s hs; simp at hs
  | cons c t' ih =>
    intro a hwfs hch j s hs
    rw [List.chain_cons] at hch
    cases j with
    | zero =>
      simp only [List.get?_cons_zero, Option.some.injEq] at hs
      rw [← hs]
      exact hch.1
    | succ j' =>
      simp only [List.get?_cons_succ] at hs
      have hwc : segWF c := hwfs c (List.mem_cons_self c t')
      have hcs : c.LastBlockNum < s.FirstBlockNum :=
        ih c (fun x hx => hwfs x (List.mem_cons_of_mem c hx)) hch.2 j' s hs
      have hcl : c.FirstBlockNum ≤ c.LastBlockNum := segWF_first_le_last c hwc
      omega

theorem seg_cross_lt : ∀ (segs : List Seg), walWF segs → ∀ j1 j2 s1 s2, j1 < j2 →
    segs.get? j1 = some s1 → segs.get? j2 = some s2 →
    s1.LastBlockNum < s2.FirstBlockNum := by
  intro segs
  induction segs with
  | nil => intro _ j1 j2 s1 s2 _ h1 _; simp at h1
  | cons a t ih =>
    intro hwf j1 j2 s1 s2 hlt h1 h2
    cases j1 with
    | zero =>
      simp only [List.get?_cons_zero, Option.some.injEq] at h1
      cases j2 with
      | zero => omega
      | succ j2' =>
        simp only [List.get?_cons_succ] at h2
        have hch : List.Chain (fun x y => x.LastBlockNum < y.FirstBlockNum) a t := hwf.2
        have := head_lt_all t a (fun s hs => hwf.1 s (List.mem_cons_of_mem a hs)) hch j2' s2 h2
        rw [← h1]
        exact this
    | succ j1' =>
      cases j2 with
      | zero => omega
      | succ j2' =>
        simp only [List.get?_cons_succ] at h1 h2
        have hwft : walWF t :=
          ⟨fun s hs => hwf.1 s (List.mem_cons_of_mem a hs), hwf.2.tail⟩
        exact ih hwft j1' j2' s1 s2 (by omega) h1 h2

theorem chain_min_of_find? (l : List Nat) (hc : List.Chain' (fun a b => a < b) l)
    (p : Nat) (m : Nat) (hf : l.find? (fun b => decide (p < b)) = some m) :
    ∀ k ∈ l, p < k → m ≤ k := by
  rw [List.chain'_iff_pairwise] at hc
  induction l with
  | nil => simp at hf
  | cons a t ih =>
    rw [List.pairwise_cons] at hc
    by_cases hpa : p < a
    · rw [List.find?_cons_of_pos t (by simpa using hpa)] at hf
      have hma : m = a := by simpa using hf.symm
      intro k hk hpk
      rcases List.mem_cons.mp hk with rfl | hkt
      · omega
      · have := hc.1 k hkt
        omega
    · rw [List.find?_cons_of_neg t (by simpa using hpa)] at hf
      intro k hk hpk
      rcases List.mem_cons.mp hk with rfl | hkt
      · exact absurd hpk hpa
      · exact ih hc.2 hf k hkt hpk

end Ethwal

namespace Ethwal

theorem readLoopFuel_finds (segs : List Seg) (i : Nat) (s : Seg)
    (hseg : segs.get? i = some s)
    (hbound : ∀ b ∈ s.blocks, s.FirstBlockNum ≤ b ∧ b ≤ s.LastBlockNum)
    (hfirst : 1 ≤ s.FirstBlockNum) (lastB m : Nat) :
    ∀ fuel pos, s.blocks.length - pos < fuel →
      (s.blocks.drop pos).find? (fun b => decide (lastB < b)) = some m →
      (readLoopFuel segs fuel i pos lastB).2 = .ok m := by
  have hsb : segBlocks segs i = s.blocks := by
    unfold segBlocks
    rw [hseg]
    rfl
  intro fuel
  induction fuel with
  | zero => intro pos h; omega
  | succ fuel ih =>
    intro pos hfuel hfind
    simp only [readLoopFuel]
    split
    case h_2 hdec =>
      exfalso
      unfold decodeAt at hdec
      rw [hsb] at hdec
      have hlen : s.blocks.length ≤ pos := by
        by_contra hcon
        rw [List.get?_eq_get (by omega)] at hdec
        exact absurd hdec (by simp)
      rw [List.drop_eq_nil_of_le hlen] at hfind
      simp at hfind
    case h_1 b hdec =>
      have hb : s.blocks.get? pos = some b := by
        unfold decodeAt at hdec
        rw [hsb] at hdec
        exact hdec
      have hposlt : pos < s.blocks.length := (List.get?_eq_some.mp hb).1
      have hmem : b ∈ s.blocks := List.get?_mem hb
      have hbb := hbound b hmem
      have hwithin : blockWithin segs i b = true := by
        unfold blockWithin
        rw [hseg]
        simp only [Option.getD_some]
        rw [Bool.and_eq_true, decide_eq_true_eq, decide_eq_true_eq]
        exact hbb
      have hdrop : s.blocks.drop pos = b :: s.blocks.drop (pos + 1) := by
        have hd := List.drop_eq_get_cons (l := s.blocks) (n := pos) hposlt
        rw [List.get?_eq_get hposlt] at hb
        rw [hd]
        simp only [Option.some.injEq] at hb
        rw [hb]
      rw [hwithin]
      simp only [Bool.not_true, Bool.false_eq_true, if_false]
      by_cases hlt : lastB < b
      · have hbne : b ≠ 0 := by omega
        rw [if_pos ⟨hbne, hlt⟩]
        rw [hdrop] at hfind
        rw [List.find?_cons_of_pos _ (by simpa using hlt)] at hfind
        simp only [Option.some.injEq] at hfind
        rw [hfind]
      · rw [if_neg (by tauto)]
        apply ih (pos + 1) (by omega)
        rw [hdrop] at hfind
        rw [List.find?_cons_of_neg _ (by simpa using hlt)] at hfind
        exact hfind

end Ethwal

namespace Ethwal

/-- C1 (amended): on a well-formed WAL, for every block number `n` with
`1 ≤ n` and `n` not exceeding some catalog entry's `LastBlockNum`, and
provided the reader is fresh (no decoder open, sitting at file 0) or the
seek target segment differs from the reader's current one, `Seek(ctx, n)`
succeeds after binary-searching the catalog, sets `lastBlockNum` to `n - 1`,
and the next `Read(ctx)` returns the first persisted block with number
`≥ n`; moreover `Seek` reports `io.EOF`, leaving the state unchanged,
whenever no catalog entry holds a block `≥ k`. -/
theorem c1_seek_read_amended (segs : List Seg) (st : RState) (n : Nat)
    (hwf : walWF segs) (hn : 1 ≤ n)
    (hmax : ∃ s ∈ segs, n ≤ s.LastBlockNum)
    (hpos : (st.pos = none ∧ st.currFileIndex = 0) ∨
      findFileIdx (segFiles segs) n ≠ st.currFileIndex) :
    (seek segs st n).2 = .ok ∧
    (seek segs st n).1.lastBlockNum = n - 1 ∧
    (∃ m, (read segs (seek segs st n).1).2 = .ok m ∧ n ≤ m ∧ m ∈ allBlocks segs ∧
      ∀ k ∈ allBlocks segs, n ≤ k → m ≤ k) ∧
    (∀ k, (∀ s ∈ segs, s.LastBlockNum < k) → seek segs st k = (st, .eof)) := by
  have hwffi := walWF_fileIndexWF segs hwf
  have hlen : (segFiles segs).length = segs.length := segFiles_length segs
  -- the EOF conjunct, independent of the other hypotheses
  have heof : ∀ k, (∀ s ∈ segs, s.LastBlockNum < k) → seek segs st k = (st, .eof) := by
    intro k hk
    have hnone : FindFile (segFiles segs) k = none := by
      rw [findFile_none_iff _ hwffi]
      intro k' hk'
      have hk'2 : k' < segs.length := by omega
      have hla := lastAt_segFiles segs k' _ (List.get?_eq_get hk'2)
      have hlt := hk _ (List.get_mem segs k' hk'2)
      omega
    unfold seek
    rw [hnone]
  -- the binary search lands strictly inside the catalog
  have hidx : findFileIdx (segFiles segs) n < (segFiles segs).length := by
    rcases Nat.lt_or_ge (findFileIdx (segFiles segs) n) (segFiles segs).length with h | h
    · exact h
    · exfalso
      obtain ⟨s, hs, hns⟩ := hmax
      obtain ⟨⟨j, hj⟩, rfl⟩ := List.mem_iff_get.mp hs
      have hl := (findFileIdx_spec (segFiles segs) hwffi n).1 j (by omega)
      have hla := lastAt_segFiles segs j _ (List.get?_eq_get hj)
      omega
  have hfsegs : findFileIdx (segFiles segs) n < segs.length := by omega
  have hsget : segs.get? (findFileIdx (segFiles segs) n) =
      some (segs.get ⟨findFileIdx (segFiles segs) n, hfsegs⟩) :=
    List.get?_eq_get hfsegs
  have hfound : n ≤ lastAt (segFiles segs) (findFileIdx (segFiles segs) n) :=
    (findFileIdx_spec (segFiles segs) hwffi n).2 _ (Nat.le_refl _) hidx
  have hlastF : lastAt (segFiles segs) (findFileIdx (segFiles segs) n) =
      (segs.get ⟨findFileIdx (segFiles segs) n, hfsegs⟩).LastBlockNum :=
    lastAt_segFiles segs _ _ hsget
  have hsF_wf : segWF (segs.get ⟨findFileIdx (segFiles segs) n, hfsegs⟩) :=
    hwf.1 _ (List.get_mem segs _ hfsegs)
  have hp64 : pred64 n = n - 1 := by
    unfold pred64
    rw [if_neg (by omega)]
  -- the first block ≥ n inside the found segment
  have hfind_some : ∃ m, (segs.get ⟨findFileIdx (segFiles segs) n, hfsegs⟩).blocks.find?
      (fun b => decide (n - 1 < b)) = some m := by
    have hlastmem : (segs.get ⟨findFileIdx (segFiles segs) n, hfsegs⟩).LastBlockNum ∈
        (segs.get ⟨findFileIdx (segFiles segs) n, hfsegs⟩).blocks :=
      List.mem_of_getLast?_eq_some hsF_wf.2.2.2.1
    have hs : ((segs.get ⟨findFileIdx (segFiles segs) n, hfsegs⟩).blocks.find?
        (fun b => decide (n - 1 < b))).isSome := by
      rw [List.find?_isSome]
      refine ⟨_, hlastmem, ?_⟩
      rw [decide_eq_true_eq]
      omega
    exact Option.isSome_iff_exists.mp hs
  obtain ⟨m, hm⟩ := hfind_some
  have hmmem : m ∈ (segs.get ⟨findFileIdx (segFiles segs) n, hfsegs⟩).blocks :=
    List.mem_of_find?_eq_some hm
  have hmgt : n - 1 < m := by
    have := List.find?_some hm
    rwa [decide_eq_true_eq] at this
  have hnm : n ≤ m := by omega
  -- the read loop from the start of the found segment returns m
  have hfb : segBlocks segs (findFileIdx (segFiles segs) n) =
      (segs.get ⟨findFileIdx (segFiles segs) n, hfsegs⟩).blocks := by
    unfold segBlocks
    rw [hsget]
    rfl
  have hrun : ∀ fuel, (segBlocks segs (findFileIdx (segFiles segs) n)).length < fuel →
      (readLoopFuel segs fuel (findFileIdx (segFiles segs) n) 0 (n - 1)).2 = .ok m := by
    intro fuel hfuel
    rw [hfb] at hfuel
    apply readLoopFuel_finds segs _ _ hsget hsF_wf.2.2.1 hsF_wf.2.2.2.2 (n - 1) m fuel 0
      (by omega)
    simpa using hm
  -- properties of m over the whole persisted stream
  have hmall : m ∈ allBlocks segs := by
    unfold allBlocks
    exact List.mem_flatMap_of_mem (List.get_mem segs _ hfsegs) hmmem
  have hmin : ∀ k ∈ allBlocks segs, n ≤ k → m ≤ k := by
    intro k hk hnk
    unfold allBlocks at hk
    obtain ⟨sk, hskmem, hkin⟩ := List.mem_flatMap.mp hk
    obtain ⟨⟨j, hj⟩, rfl⟩ := List.mem_iff_get.mp hskmem
    rcases lt_trichotomy j (findFileIdx (segFiles segs) n) with hj1 | hj2 | hj3
    · exfalso
      have hkle : k ≤ (segs.get ⟨j, hj⟩).LastBlockNum :=
        ((hwf.1 _ (List.get_mem segs j hj)).2.2.1 k hkin).2
      have hl := (findFileIdx_spec (segFiles segs) hwffi n).1 j hj1
      have hla := lastAt_segFiles segs j _ (List.get?_eq_get hj)
      omega
    · subst hj2
      exact chain_min_of_find? _ hsF_wf.2.1 (n - 1) m hm k hkin (by omega)
    · have hcross := seg_cross_lt segs hwf (findFileIdx (segFiles segs) n) j _ _ hj3
        hsget (List.get?_eq_get hj)
      have hmle : m ≤ (segs.get ⟨findFileIdx (segFiles segs) n, hfsegs⟩).LastBlockNum :=
        (hsF_wf.2.2.1 m hmmem).2
      have hkge : (segs.get ⟨j, hj⟩).FirstBlockNum ≤ k :=
        ((hwf.1 _ (List.get_mem segs j hj)).2.2.1 k hkin).1
      omega
  -- compute the seek
  have hFF : FindFile (segFiles segs) n =
      some ((segFiles segs).get ⟨findFileIdx (segFiles segs) n, hidx⟩,
        findFileIdx (segFiles segs) n) := by
    unfold FindFile
    rw [dif_pos hidx]
  have hseekeq : seek segs st n =
      if st.currFileIndex ≠ findFileIdx (segFiles segs) n then
        (⟨findFileIdx (segFiles segs) n, some 0, pred64 n⟩, .ok)
      else ({ st with lastBlockNum := pred64 n }, .ok) := by
    unfold seek
    rw [hFF]
  refine ⟨?_, ?_, ?_, heof⟩
  · rw [hseekeq]
    by_cases hc : st.currFileIndex ≠ findFileIdx (segFiles segs) n
    · rw [if_pos hc]
    · rw [if_neg hc]
  · rw [hseekeq]
    by_cases hc : st.currFileIndex ≠ findFileIdx (segFiles segs) n
    · rw [if_pos hc]
      exact hp64
    · rw [if_neg hc]
      exact hp64
  · rw [hseekeq]
    by_cases hc : st.currFileIndex ≠ findFileIdx (segFiles segs) n
    · rw [if_pos hc]
      refine ⟨m, ?_, hnm, hmall, hmin⟩
      unfold read
      simp only
      rw [hp64]
      exact hrun _ (by omega)
    · rw [if_neg hc]
      rcases hpos with ⟨hpn, hpc⟩ | hne
      · push_neg at hc
        refine ⟨m, ?_, hnm, hmall, hmin⟩
        unfold read
        simp only [hpn]
        rw [if_neg (by omega)]
        rw [hp64]
        have h0 : findFileIdx (segFiles segs) n = 0 := by omega
        rw [h0] at hrun
        exact hrun ((segBlocks segs 0).length + 1) (by omega)
      · exact absurd (by omega : findFileIdx (segFiles segs) n = st.currFileIndex) hne

end Ethwal

namespace Ethwal

/-- Witness for C1 (amended): over segments `[1,2]` and `[4,5]`, a fresh
reader's `Seek(3)` then `Read` returns block 4, the first persisted block
`≥ 3`. -/
theorem c1_witness :
    (seek [⟨1, 2, [1, 2]⟩, ⟨4, 5, [4, 5]⟩] initialReader 3).2 = .ok ∧
    (seek [⟨1, 2, [1, 2]⟩, ⟨4, 5, [4, 5]⟩] initialReader 3).1.lastBlockNum = 2 ∧
    (∃ m, (read [⟨1, 2, [1, 2]⟩, ⟨4, 5, [4, 5]⟩]
        (seek [⟨1, 2, [1, 2]⟩, ⟨4, 5, [4, 5]⟩] initialReader 3).1).2 = .ok m ∧
      3 ≤ m ∧ m ∈ allBlocks [⟨1, 2, [1, 2]⟩, ⟨4, 5, [4, 5]⟩] ∧
      ∀ k ∈ allBlocks [⟨1, 2, [1, 2]⟩, ⟨4, 5, [4, 5]⟩], 3 ≤ k → m ≤ k) := by
  have hseg1 : segWF ⟨1, 2, [1, 2]⟩ := ⟨by simp, by simp, by decide, by decide, by decide⟩
  have hseg2 : segWF ⟨4, 5, [4, 5]⟩ := ⟨by simp, by simp, by decide, by decide, by decide⟩
  have hwf : walWF [⟨1, 2, [1, 2]⟩, ⟨4, 5, [4, 5]⟩] := by
    constructor
    · intro s hs
      rcases List.mem_cons.mp hs with rfl | hs
      · exact hseg1
      · rcases List.mem_cons.mp hs with rfl | hs
        · exact hseg2
        · simp at hs
    · simp
  have h := c1_seek_read_amended [⟨1, 2, [1, 2]⟩, ⟨4, 5, [4, 5]⟩] initialReader 3 hwf
    (by norm_num) ⟨⟨4, 5, [4, 5]⟩, by simp, by norm_num⟩ (Or.inl ⟨rfl, rfl⟩)
  exact ⟨h.1, h.2.1, h.2.2.1⟩

/-- C1 counterexample: the claim as stated fails on the code in two ways.
With the WAL `[{1,1,[1]}]`, `Seek(0)` succeeds on a fresh reader (0 does not
exceed the highest persisted block) but the uint64 wrap of
`lastBlockNum = 0 - 1` makes the next `Read` skip the whole stream and
report `io.EOF`, although block 1 — the first persisted block `≥ 0` —
exists.  With the WAL `[{1,2,[1,2]}]`, after reading block 1, `Seek(1)`
targets the already-active segment, so the decoder is not rewound and the
next `Read` returns block 2, not the first persisted block `≥ 1`. -/
theorem c1_counterexample :
    ((allBlocks [(⟨1, 1, [1]⟩ : Seg)]).find? (fun b => decide (0 ≤ b)) = some 1 ∧
      (seek [(⟨1, 1, [1]⟩ : Seg)] initialReader 0).2 = .ok ∧
      (read [(⟨1, 1, [1]⟩ : Seg)] (seek [(⟨1, 1, [1]⟩ : Seg)] initialReader 0).1).2 = .eof) ∧
    ((allBlocks [(⟨1, 2, [1, 2]⟩ : Seg)]).find? (fun b => decide (1 ≤ b)) = some 1 ∧
      (read [(⟨1, 2, [1, 2]⟩ : Seg)] initialReader).2 = .ok 1 ∧
      (seek [(⟨1, 2, [1, 2]⟩ : Seg)]
        (read [(⟨1, 2, [1, 2]⟩ : Seg)] initialReader).1 1).2 = .ok ∧
      (read [(⟨1, 2, [1, 2]⟩ : Seg)]
        (seek [(⟨1, 2, [1, 2]⟩ : Seg)]
          (read [(⟨1, 2, [1, 2]⟩ : Seg)] initialReader).1 1).1).2 = .ok 2) := by
  decide

end Ethwal

namespace Ethwal

/-! ## C7: index watermark monotonicity -/

theorem lastBNI_again (cache : Option Nat) (fs fs' : IdxFS)
    (hwm : fs'.wmFile = fs.wmFile) :
    lastBlockNumIndexed (lastBlockNumIndexed cache fs).2 fs' =
      lastBlockNumIndexed cache fs := by
  cases cache with
  | some v => rfl
  | none =>
    cases hw : fs.wmFile with
    | none => simp only [lastBlockNumIndexed, hw, hwm]
    | some v => simp only [lastBlockNumIndexed, hw, hwm]

theorem storeBitmaps_wmFile (l : List (String × List Nat)) :
    ∀ fs : IdxFS, (storeBitmaps fs l).1.wmFile = fs.wmFile := by
  induction l with
  | nil => intro fs; rfl
  | cons p rest ih =>
    intro fs
    obtain ⟨v, bm⟩ := p
    simp only [storeBitmaps]
    by_cases he : bm.isEmpty
    · rw [if_pos he]
      exact ih fs
    · rw [if_neg he]
      exact ih _

theorem storeBitmaps_trace (l : List (String × List Nat)) :
    ∀ fs : IdxFS,
      (∀ e ∈ (storeBitmaps fs l).2, ∃ v, e = .writeBitmapEv v) ∧
      (∀ p ∈ l, p.2 ≠ [] → IdxEvent.writeBitmapEv p.1 ∈ (storeBitmaps fs l).2) := by
  induction l with
  | nil =>
    intro fs
    constructor
    · intro e he; simp [storeBitmaps] at he
    · intro p hp; simp at hp
  | cons p rest ih =>
    intro fs
    obtain ⟨v, bm⟩ := p
    simp only [storeBitmaps]
    by_cases he : bm.isEmpty
    · rw [if_pos he]
      constructor
      · exact (ih fs).1
      · intro q hq hqne
        rcases List.mem_cons.mp hq with rfl | hqr
        · exact absurd (List.isEmpty_iff.mp he) hqne
        · exact (ih fs).2 q hqr hqne
    · rw [if_neg he]
      constructor
      · intro e hev
        rcases List.mem_cons.mp hev with rfl | her
        · exact ⟨v, rfl⟩
        · exact (ih _).1 e her
      · intro q hq hqne
        rcases List.mem_cons.mp hq with rfl | hqr
        · exact List.mem_cons_self _ _
        · exact List.mem_cons_of_mem _ ((ih _).2 q hqr hqne)

/-- C7: the index watermark never decreases across a `Store`; `Store` is a
no-op (no filesystem write, no events, watermark unchanged) when the current
watermark already covers `update.LastBlockNum`; otherwise it writes every
non-empty value bitmap of the update strictly before the single watermark
write that advances the watermark to `update.LastBlockNum`; and
`storeLastBlockNumIndexed` itself refuses to lower the stored value. -/
theorem c7_watermark_monotone (cache : Option Nat) (fs : IdxFS) (u : IndexUpdate) :
    wmValue cache fs ≤ wmValue (storeIndex cache fs u).1 (storeIndex cache fs u).2.1 ∧
    (u.LastBlockNum ≤ wmValue cache fs →
      (storeIndex cache fs u).2.1 = fs ∧ (storeIndex cache fs u).2.2 = [] ∧
      wmValue (storeIndex cache fs u).1 (storeIndex cache fs u).2.1 = wmValue cache fs) ∧
    (wmValue cache fs < u.LastBlockNum →
      (∃ evs, (storeIndex cache fs u).2.2 = evs ++ [.writeWatermarkEv u.LastBlockNum] ∧
        (∀ e ∈ evs, ∃ v, e = .writeBitmapEv v) ∧
        (∀ p ∈ u.Data, p.2 ≠ [] → IdxEvent.writeBitmapEv p.1 ∈ evs)) ∧
      (storeIndex cache fs u).2.1.wmFile = some u.LastBlockNum) ∧
    (∀ n, n ≤ wmValue cache fs →
      (storeLastBlockNumIndexed cache fs n).2.1 = fs ∧
      (storeLastBlockNumIndexed cache fs n).2.2 = []) := by
  have hrefuse : ∀ n, n ≤ wmValue cache fs →
      (storeLastBlockNumIndexed cache fs n).2.1 = fs ∧
      (storeLastBlockNumIndexed cache fs n).2.2 = [] := by
    intro n hn
    unfold wmValue at hn
    unfold storeLastBlockNumIndexed
    rw [if_pos hn]
    exact ⟨rfl, rfl⟩
  by_cases hle : u.LastBlockNum ≤ (lastBlockNumIndexed cache fs).1
  · have hstore : storeIndex cache fs u = ((lastBlockNumIndexed cache fs).2, fs, []) := by
      unfold storeIndex
      rw [if_pos hle]
    have hagain := lastBNI_again cache fs fs rfl
    refine ⟨?_, ?_, ?_, hrefuse⟩
    · rw [hstore]
      unfold wmValue
      rw [hagain]
    · intro _
      rw [hstore]
      refine ⟨rfl, rfl, ?_⟩
      unfold wmValue
      rw [hagain]
    · intro h
      unfold wmValue at h
      omega
  · have hwmpres := storeBitmaps_wmFile u.Data fs
    have hagain := lastBNI_again cache fs (storeBitmaps fs u.Data).1 hwmpres
    have hsl : storeLastBlockNumIndexed (lastBlockNumIndexed cache fs).2
        (storeBitmaps fs u.Data).1 u.LastBlockNum =
        (some u.LastBlockNum,
          { (storeBitmaps fs u.Data).1 with wmFile := some u.LastBlockNum },
          [.writeWatermarkEv u.LastBlockNum]) := by
      unfold storeLastBlockNumIndexed
      rw [hagain, if_neg hle]
    have hstore : storeIndex cache fs u =
        (some u.LastBlockNum,
          { (storeBitmaps fs u.Data).1 with wmFile := some u.LastBlockNum },
          (storeBitmaps fs u.Data).2 ++ [.writeWatermarkEv u.LastBlockNum]) := by
      unfold storeIndex
      rw [if_neg hle, hsl]
    refine ⟨?_, ?_, ?_, hrefuse⟩
    · rw [hstore]
      unfold wmValue
      simp only [lastBlockNumIndexed] at hle ⊢
      omega
    · intro h
      unfold wmValue at h
      omega
    · intro _
      rw [hstore]
      refine ⟨⟨(storeBitmaps fs u.Data).2, rfl, ?_, ?_⟩, rfl⟩
      · exact (storeBitmaps_trace u.Data fs).1
      · exact (storeBitmaps_trace u.Data fs).2

/-- Witness for C7 at a concrete index state and update. -/
theorem c7_witness :
    ((3 : Nat) ≤ wmValue (some 3) ⟨some 3, []⟩ ∧
      (storeIndex (some 3) ⟨some 3, []⟩ ⟨[("v", [7])], 2⟩).2.1 = ⟨some 3, []⟩ ∧
      (storeIndex (some 3) ⟨some 3, []⟩ ⟨[("v", [7])], 2⟩).2.2 = []) ∧
    (wmValue (some 3) ⟨some 3, []⟩ < 5 ∧
      (storeIndex (some 3) ⟨some 3, []⟩ ⟨[("v", [7])], 5⟩).2.1.wmFile = some 5) := by
  have h2 := c7_watermark_monotone (some 3) ⟨some 3, []⟩ ⟨[("v", [7])], 2⟩
  have h5 := c7_watermark_monotone (some 3) ⟨some 3, []⟩ ⟨[("v", [7])], 5⟩
  have hnoop := h2.2.1 (by decide)
  refine ⟨⟨by decide, hnoop.1, hnoop.2.1⟩, by decide, (h5.2.2.1 (by decide)).2⟩

end Ethwal

namespace Ethwal

/-! ## C8: filter And/Or correctness -/

theorem mem_bAnd (x : Nat) (a c : List Nat) : x ∈ bAnd a c ↔ x ∈ a ∧ x ∈ c := by
  simp [bAnd, List.mem_filter]

theorem mem_bOr (x : Nat) (a c : List Nat) : x ∈ bOr a c ↔ x ∈ a ∨ x ∈ c := by
  simp only [bOr, List.mem_append, List.mem_filter, decide_eq_true_eq]
  constructor
  · rintro (h | ⟨h, _⟩)
    · exact Or.inl h
    · exact Or.inr h
  · rintro (h | h)
    · exact Or.inl h
    · by_cases ha : x ∈ a
      · exact Or.inl ha
      · exact Or.inr ⟨h, ha⟩

theorem filterAnd_go (rest : List (Option (List Nat))) : ∀ b : List Nat,
    ∃ b', filterAnd (some b :: rest) = some b' ∧
      ∀ x, (x ∈ b' ↔ x ∈ b ∧ ∀ fb, some fb ∈ rest → x ∈ fb) := by
  induction rest with
  | nil =>
    intro b
    refine ⟨b, rfl, fun x => ?_⟩
    simp
  | cons f rest ih =>
    intro b
    cases f with
    | none =>
      obtain ⟨b', hb', hmem⟩ := ih b
      refine ⟨b', hb', fun x => ?_⟩
      rw [hmem x]
      simp only [List.mem_cons]
      constructor
      · rintro ⟨hxb, hall⟩
        exact ⟨hxb, fun fb hfb => hall fb (by simpa using hfb)⟩
      · rintro ⟨hxb, hall⟩
        exact ⟨hxb, fun fb hfb => hall fb (Or.inr hfb)⟩
    | some fb =>
      obtain ⟨b', hb', hmem⟩ := ih (bAnd b fb)
      refine ⟨b', hb', fun x => ?_⟩
      rw [hmem x, mem_bAnd]
      constructor
      · rintro ⟨⟨h1, h2⟩, hall⟩
        refine ⟨h1, fun g hg => ?_⟩
        rcases List.mem_cons.mp hg with heq | hr
        · cases Option.some.inj heq
          exact h2
        · exact hall g hr
      · rintro ⟨h1, hall⟩
        exact ⟨⟨h1, hall fb (List.mem_cons_self _ _)⟩,
          fun g hg => hall g (List.mem_cons_of_mem _ hg)⟩

theorem filterOr_go (rest : List (Option (List Nat))) : ∀ b : List Nat,
    ∃ b', filterOr (some b :: rest) = some b' ∧
      ∀ x, (x ∈ b' ↔ x ∈ b ∨ ∃ fb, some fb ∈ rest ∧ x ∈ fb) := by
  induction rest with
  | nil =>
    intro b
    refine ⟨b, rfl, fun x => ?_⟩
    simp
  | cons f rest ih =>
    intro b
    cases f with
    | none =>
      obtain ⟨b', hb', hmem⟩ := ih b
      refine ⟨b', hb', fun x => ?_⟩
      rw [hmem x]
      simp only [List.mem_cons]
      constructor
      · rintro (hxb | ⟨g, hg, hxg⟩)
        · exact Or.inl hxb
        · exact Or.inr ⟨g, Or.inr hg, hxg⟩
      · rintro (hxb | ⟨g, hg, hxg⟩)
        · exact Or.inl hxb
        · rcases hg with heq | hr
          · exact absurd heq (by simp)
          · exact Or.inr ⟨g, hr, hxg⟩
    | some fb =>
      obtain ⟨b', hb', hmem⟩ := ih (bOr b fb)
      refine ⟨b', hb', fun x => ?_⟩
      rw [hmem x, mem_bOr]
      constructor
      · rintro ((h1 | h1) | ⟨g, hg, hxg⟩)
        · exact Or.inl h1
        · exact Or.inr ⟨fb, List.mem_cons_self _ _, h1⟩
        · exact Or.inr ⟨g, List.mem_cons_of_mem _ hg, hxg⟩
      · rintro (h1 | ⟨g, hg, hxg⟩)
        · exact Or.inl (Or.inl h1)
        · rcases List.mem_cons.mp hg with heq | hr
          · cases Option.some.inj heq
            exact Or.inl (Or.inr hxg)
          · exact Or.inr ⟨g, hr, hxg⟩

theorem filterAnd_some_char (filters : List (Option (List Nat))) (b : List Nat)
    (h : filterAnd filters = some b) :
    ∀ x, (x ∈ b ↔ ∀ fb, some fb ∈ filters → x ∈ fb) := by
  induction filters with
  | nil => exact absurd h (by simp [filterAnd])
  | cons f rest ih =>
    cases f with
    | none =>
      intro x
      rw [ih h x]
      simp only [List.mem_cons]
      constructor
      · intro hall fb hfb
        exact hall fb (by simpa using hfb)
      · intro hall fb hfb
        exact hall fb (Or.inr hfb)
    | some fb =>
      obtain ⟨b', hb', hmem⟩ := filterAnd_go rest fb
      rw [h] at hb'
      cases Option.some.inj hb'
      intro x
      rw [hmem x]
      constructor
      · rintro ⟨h1, hall⟩
        intro g hg
        rcases List.mem_cons.mp hg with heq | hr
        · cases Option.some.inj heq
          exact h1
        · exact hall g hr
      · intro hall
        exact ⟨hall fb (List.mem_cons_self _ _),
          fun g hg => hall g (List.mem_cons_of_mem _ hg)⟩

theorem filterOr_some_char (filters : List (Option (List Nat))) (b : List Nat)
    (h : filterOr filters = some b) :
    ∀ x, (x ∈ b ↔ ∃ fb, some fb ∈ filters ∧ x ∈ fb) := by
  induction filters with
  | nil => exact absurd h (by simp [filterOr])
  | cons f rest ih =>
    cases f with
    | none =>
      intro x
      rw [ih h x]
      simp only [List.mem_cons]
      constructor
      · rintro ⟨g, hg, hxg⟩
        exact ⟨g, Or.inr hg, hxg⟩
      · rintro ⟨g, hg, hxg⟩
        rcases hg with heq | hr
        · exact absurd heq (by simp)
        · exact ⟨g, hr, hxg⟩
    | some fb =>
      obtain ⟨b', hb', hmem⟩ := filterOr_go rest fb
      rw [h] at hb'
      cases Option.some.inj hb'
      intro x
      rw [hmem x]
      constructor
      · rintro (h1 | ⟨g, hg, hxg⟩)
        · exact ⟨fb, List.mem_cons_self _ _, h1⟩
        · exact ⟨g, List.mem_cons_of_mem _ hg, hxg⟩
      · rintro ⟨g, hg, hxg⟩
        rcases List.mem_cons.mp hg with heq | hr
        · cases Option.some.inj heq
          exact Or.inl hxg
        · exact Or.inr ⟨g, hr, hxg⟩

theorem filterAnd_none_iff (filters : List (Option (List Nat))) :
    filterAnd filters = none ↔ ∀ f ∈ filters, f = none := by
  induction filters with
  | nil => simp [filterAnd]
  | cons f rest ih =>
    cases f with
    | none =>
      constructor
      · intro h g hg
        rcases List.mem_cons.mp hg with heq | hr
        · exact heq
        · exact ih.mp h g hr
      · intro hall
        exact ih.mpr (fun g hg => hall g (List.mem_cons_of_mem _ hg))
    | some fb =>
      obtain ⟨b', hb', _⟩ := filterAnd_go rest fb
      constructor
      · intro h
        rw [h] at hb'
        exact absurd hb' (by simp)
      · intro hall
        exact absurd (hall (some fb) (List.mem_cons_self _ _)) (by simp)

theorem filterOr_none_iff (filters : List (Option (List Nat))) :
    filterOr filters = none ↔ ∀ f ∈ filters, f = none := by
  induction filters with
  | nil => simp [filterOr]
  | cons f rest ih =>
    cases f with
    | none =>
      constructor
      · intro h g hg
        rcases List.mem_cons.mp hg with heq | hr
        · exact heq
        · exact ih.mp h g hr
      · intro hall
        exact ih.mpr (fun g hg => hall g (List.mem_cons_of_mem _ hg))
    | some fb =>
      obtain ⟨b', hb', _⟩ := filterOr_go rest fb
      constructor
      · intro h
        rw [h] at hb'
        exact absurd hb' (by simp)
      · intro hall
        exact absurd (hall (some fb) (List.mem_cons_self _ _)) (by simp)

/-- C8: the builder's `And` evaluates to the intersection of the non-nil
children's bitmaps and `Or` to their union (nil operands skipped; the result
is the nil bitmap exactly when every operand is nil); in particular
`And(Eq(n,v1), Eq(n,v2))` is the pointwise intersection of the two `Eq`
bitmaps and `Or(Eq(n,v1), Eq(n,v2))` their union. -/
theorem c8_filter_and_or (filters : List (Option (List Nat))) (b : List Nat) (x : Nat)
    (idx : List String) (fetch : String → String → List Nat) (n v1 v2 : String) :
    (filterAnd filters = some b → (x ∈ b ↔ ∀ fb, some fb ∈ filters → x ∈ fb)) ∧
    (filterOr filters = some b → (x ∈ b ↔ ∃ fb, some fb ∈ filters ∧ x ∈ fb)) ∧
    (filterAnd filters = none ↔ ∀ f ∈ filters, f = none) ∧
    (filterOr filters = none ↔ ∀ f ∈ filters, f = none) ∧
    filterAnd [some (filterEq idx fetch n v1), some (filterEq idx fetch n v2)] =
      some (bAnd (filterEq idx fetch n v1) (filterEq idx fetch n v2)) ∧
    filterOr [some (filterEq idx fetch n v1), some (filterEq idx fetch n v2)] =
      some (bOr (filterEq idx fetch n v1) (filterEq idx fetch n v2)) ∧
    (x ∈ bAnd (filterEq idx fetch n v1) (filterEq idx fetch n v2) ↔
      x ∈ filterEq idx fetch n v1 ∧ x ∈ filterEq idx fetch n v2) ∧
    (x ∈ bOr (filterEq idx fetch n v1) (filterEq idx fetch n v2) ↔
      x ∈ filterEq idx fetch n v1 ∨ x ∈ filterEq idx fetch n v2) := by
  refine ⟨fun h => filterAnd_some_char filters b h x,
    fun h => filterOr_some_char filters b h x,
    filterAnd_none_iff filters, filterOr_none_iff filters,
    rfl, rfl, mem_bAnd x _ _, mem_bOr x _ _⟩

/-- Witness for C8 at concrete bitmaps. -/
theorem c8_witness :
    ((2 : Nat) ∈ ([2, 3] : List Nat) ↔
      ∀ fb, some fb ∈ [none, some [1, 2, 3], some ([2, 3] : List Nat)] → 2 ∈ fb) ∧
    ((5 : Nat) ∈ ([1, 2, 3, 5] : List Nat) ↔
      ∃ fb, some fb ∈ [none, some [1, 2, 3], some ([5] : List Nat)] ∧ 5 ∈ fb) := by
  have h1 := c8_filter_and_or [none, some [1, 2, 3], some [2, 3]] [2, 3] 2
    [] (fun _ _ => []) "" "" ""
  have h2 := c8_filter_and_or [none, some [1, 2, 3], some [5]] [1, 2, 3, 5] 5
    [] (fun _ _ => []) "" "" ""
  exact ⟨h1.1 (by decide), h2.2.1 (by decide)⟩

end Ethwal

namespace Ethwal

/-! ## C9: no-gap writer deferred lastBlockNum update -/

theorem noGapWrite_fst (innerOk : Nat → Bool) (last bNum : Nat) :
    (noGapWrite innerOk last bNum).1 = bNum := by
  unfold noGapWrite
  split
  · rfl
  · split
    · rfl
    · dsimp only
      split
      · rfl
      · rfl

/-- C9 (amended: requires `b.Number ≠ NoBlockNum`): `noGapWriter.Write`
records the requested block number as `lastBlockNum` on every path, inner
errors included; hence after any `Write(b)` with `b.Number ≠ NoBlockNum`,
a retried write of any block number `≤ b.Number` returns nil with no inner
writer call, so failed gap placeholders are never re-attempted. -/
theorem c9_nogap_amended (innerOk retryOk : Nat → Bool) (last bNum bNum' : Nat)
    (hne : bNum ≠ NoBlockNum) (hle : bNum' ≤ bNum) :
    (noGapWrite innerOk last bNum).1 = bNum ∧
    noGapWrite retryOk (noGapWrite innerOk last bNum).1 bNum' = (bNum', true, []) := by
  refine ⟨noGapWrite_fst innerOk last bNum, ?_⟩
  rw [noGapWrite_fst]
  unfold noGapWrite
  rw [if_pos ⟨hne, hle⟩]

/-- Witness for C9: a failed write of block 7 (inner writer always errors)
still advances `lastBlockNum` to 7, and the retry of 7 is a silent no-op. -/
theorem c9_witness :
    (7 : Nat) ≠ NoBlockNum ∧
    (noGapWrite (fun _ => false) 5 7).1 = 7 ∧
    noGapWrite (fun _ => false) (noGapWrite (fun _ => false) 5 7).1 7 = (7, true, []) := by
  have h := c9_nogap_amended (fun _ => false) (fun _ => false) 5 7 7 (by decide) (by decide)
  exact ⟨by decide, h.1, h.2⟩

/-- C9 counterexample: the retry guard `lastBlockNum != NoBlockNum` makes the
claim fail at `b.Number = NoBlockNum`.  Writing block `2^64 - 1` (all inner
writes failing) performs one failed inner call and sets `lastBlockNum` to
`NoBlockNum`; the retry of the very same block is then NOT a silent no-op: it
calls the inner writer again (on gap block 0, due to uint64 wraparound of
`lastBlockNum + 1`) and returns an error. -/
theorem c9_counterexample :
    noGapWrite (fun _ => false) (U64 - 2) (U64 - 1) = (U64 - 1, false, [U64 - 1]) ∧
    noGapWrite (fun _ => false) (U64 - 1) (U64 - 1) = (U64 - 1, false, [0]) := by
  constructor
  · rfl
  · rfl

end Ethwal

namespace Ethwal

/-! ## C10: verify-hash writer forwards block number 1 unvalidated -/

/-- C10: `writerWithVerifyHash.Write` forwards every block with `Number = 1`
to the inner writer with no parent-hash validation and no getter call — even
when `prevHash` is non-zero and `b.Parent` does not match it — and on success
sets `prevHash` to `b.Hash`; blocks with `Number ≠ 1` are validated: a parent
mismatch against a cached non-zero `prevHash` rejects with no inner call, a
getter failure when `prevHash` is zero rejects after the getter call, and a
matching parent with a successful inner write advances `prevHash` to `b.Hash`. -/
theorem c10_verify_hash_block_one (getter : Nat → Option Nat) (innerOk : VBlock → Bool)
    (prevHash : Nat) (b : VBlock) :
    (b.number = 1 →
      (vhWrite getter innerOk prevHash b).2.2 = [.innerWriteEv b] ∧
      (innerOk b = true →
        vhWrite getter innerOk prevHash b = (b.hash, true, [.innerWriteEv b])) ∧
      (innerOk b = false →
        vhWrite getter innerOk prevHash b = (prevHash, false, [.innerWriteEv b]))) ∧
    (b.number ≠ 1 → prevHash ≠ 0 → b.parent ≠ prevHash →
      vhWrite getter innerOk prevHash b = (0, false, [])) ∧
    (b.number ≠ 1 → prevHash = 0 → getter (pred64 b.number) = none →
      vhWrite getter innerOk prevHash b = (prevHash, false, [.getHashEv (pred64 b.number)])) ∧
    (b.number ≠ 1 → prevHash ≠ 0 → b.parent = prevHash → innerOk b = true →
      vhWrite getter innerOk prevHash b = (b.hash, true, [.innerWriteEv b])) := by
  refine ⟨?_, ?_, ?_, ?_⟩
  · intro h1
    unfold vhWrite
    rw [if_pos h1]
    refine ⟨?_, ?_, ?_⟩
    · cases innerOk b
      · rw [if_neg (by simp)]
      · rw [if_pos rfl]
    · intro hok
      rw [if_pos hok]
    · intro hok
      rw [if_neg (by simp [hok])]
  · intro h1 hp0 hpar
    unfold vhWrite
    rw [if_neg h1, if_neg hp0]
    dsimp only
    rw [if_pos hpar]
  · intro h1 hp0 hget
    unfold vhWrite
    rw [if_neg h1, if_pos hp0, hget]
    rfl
  · intro h1 hp0 hpar hok
    unfold vhWrite
    rw [if_neg h1, if_neg hp0]
    dsimp only
    rw [if_neg (by simp [hpar]), if_pos hok]
    rfl

/-- Witness for C10: block number 1 with a garbage parent hash is accepted
mid-stream (cached `prevHash = 7`), and a block number 2 with the same
mismatching parent is rejected with `prevHash` reset to zero. -/
theorem c10_witness :
    vhWrite (fun _ => none) (fun _ => true) 7 ⟨5, 99, 1⟩ =
      (5, true, [.innerWriteEv ⟨5, 99, 1⟩]) ∧
    vhWrite (fun _ => none) (fun _ => true) 7 ⟨5, 99, 2⟩ = (0, false, []) := by
  have h1 := c10_verify_hash_block_one (fun _ => none) (fun _ => true) 7 ⟨5, 99, 1⟩
  have h2 := c10_verify_hash_block_one (fun _ => none) (fun _ => true) 7 ⟨5, 99, 2⟩
  exact ⟨(h1.1 rfl).2.1 rfl, h2.2.1 (by decide) (by decide) (by decide)⟩

end Ethwal
